import Mathlib

/-!
Verification of the Discogs-Preview-for-YouTube text/parsing core.

Shallow embedding of the pure string-processing and aggregation functions of
the extension (`background.js` + `popup.js`, given as `src/unnamed/part_001`),
together with proofs and refutations of the frozen specification claims.

Strings are modelled as `List Char` (JS strings; all inputs of interest are
made of Unicode scalar values, surrogate-pair subtleties do not arise for any
property below).  JS numbers that hold prices are modelled as exact rationals
(`ℚ`); the claims under study only compare, pool, sort and halve such values,
which is order- and value-faithful for the short decimal literals involved.
JS regexes used by the source are compiled, construct by construct, to
deterministic scanners; each compiled definition notes the regex it embeds.
-/

set_option maxRecDepth 100000

namespace DiscogsPreview

/-- JS whitespace (`\s` in a regex, and the characters trimmed by
`String.prototype.trim`): space, tab, LF, VT, FF, CR, NBSP, and the
Unicode space/line/paragraph separators recognised by ECMAScript. -/
def jsWs (c : Char) : Bool :=
  c = ' ' || c = '\t' || c = '\n' || c = '\x0b' || c = '\x0c' || c = '\r' ||
  c = '\u00A0' || c = '\u1680' ||
  ('\u2000' ≤ c && c ≤ '\u200A') ||
  c = '\u2028' || c = '\u2029' || c = '\u202F' || c = '\u205F' ||
  c = '\u3000' || c = '\uFEFF'

/-- Lowercase ASCII letter. -/
def isLowerAlpha (c : Char) : Bool := 'a' ≤ c && c ≤ 'z'

/-- ASCII digit (`\d` in a JS regex). -/
def isDigit (c : Char) : Bool := '0' ≤ c && c ≤ '9'

/-- The characters kept by `normalize`'s character class `[a-z0-9]`
(whitespace is handled separately). -/
def isLowerAlnum (c : Char) : Bool := isLowerAlpha c || isDigit c

/-- JS word character (`\w`, used by the `\b` word boundary):
`[A-Za-z0-9_]`. -/
def isJsWordChar (c : Char) : Bool :=
  ('a' ≤ c && c ≤ 'z') || ('A' ≤ c && c ≤ 'Z') || isDigit c || c = '_'

/-- `String.prototype.toLowerCase`, restricted to ASCII.  The source only ever
inspects lowercase ASCII output (everything else is removed by the
`[^a-z0-9\s]` class of `normalize`), so the exotic non-ASCII case mappings of
full Unicode lowercasing are irrelevant to every property proved below. -/
def jsToLower (c : Char) : Char :=
  if 'A' ≤ c ∧ c ≤ 'Z' then Char.ofNat (c.toNat + 32) else c

/-- `.replace(/\s+/g, " ")`: collapse each maximal whitespace run to one
single ASCII space.  The flag records whether the previous character was
whitespace (so only the first character of a run emits the space). -/
def collapseWsAux : Bool → List Char → List Char
  | _, [] => []
  | prevWs, c :: t =>
    if jsWs c then
      if prevWs then collapseWsAux true t
      else ' ' :: collapseWsAux true t
    else c :: collapseWsAux false t

def collapseWs (l : List Char) : List Char := collapseWsAux false l

/-- `String.prototype.trim` on a char list. -/
def jsTrim (l : List Char) : List Char :=
  ((l.dropWhile jsWs).reverse.dropWhile jsWs).reverse

/-- Core of `normalize` on char lists:
`(s || "").toLowerCase().replace(/[^a-z0-9\s]/g, "").replace(/\s+/g, " ").trim()`. -/
def normalizeCore (l : List Char) : List Char :=
  jsTrim (collapseWs ((l.map jsToLower).filter (fun c => isLowerAlnum c || jsWs c)))

/-- `normalize(s)` from background.js.  The argument is an `Option` because the
source accepts `null`/`undefined` (`s || ""`). -/
def normalize (s : Option String) : String :=
  ⟨normalizeCore (s.getD "").data⟩

/-! ## `fuzzyNorm`: whole-word substitutions

`str.replace(/\bPAT\b/g, REP)` for a literal pattern `PAT` is compiled to a
left-to-right scan over the characters of `str`.  A match fires at a position
when `PAT` is a prefix of the remaining input and the JS word-boundary `\b`
holds on both sides: the boundary holds at a point iff exactly one of the two
neighbouring characters (a missing neighbour counting as a non-word character)
is a word character.  After a replacement the scan resumes right after the
matched span of the *original* string, as JS `replace` does. -/

/-- `\b` immediately before the match: the previous character's word-ness
(`prev`) must differ from that of the pattern's first character. -/
def boundaryBefore (prev : Bool) (pat : List Char) : Bool :=
  match pat with
  | [] => true
  | c :: _ => prev != isJsWordChar c

/-- `\b` immediately after the match: the word-ness of the pattern's last
character must differ from that of the following character (end of string
counts as non-word). -/
def boundaryAfter (pat rest : List Char) : Bool :=
  match pat.getLast? with
  | none => true
  | some lastc =>
    match rest with
    | [] => isJsWordChar lastc
    | c :: _ => isJsWordChar lastc != isJsWordChar c

/-- Whether the pattern's last character is a word character (the `prev`
state to resume with after a replacement). -/
def patLastWord (pat : List Char) : Bool :=
  match pat.getLast? with
  | none => true
  | some c => isJsWordChar c

/-- One `str.replace(/\bpat\b/g, rep)` pass.  `prev` records whether the
character just before the current position is a word character (`false` at
the start of the string).  A positive `skip` means the scanner is still
inside the span of the previous match: those characters were consumed by the
match and are dropped (JS `replace` resumes scanning right after the match,
on the original string). -/
def replaceWordAllGo (pat rep : List Char) : Nat → Bool → List Char → List Char
  | _ + 1, _, [] => []
  | skip + 1, prev, _ :: t => replaceWordAllGo pat rep skip prev t
  | 0, _, [] => []
  | 0, prev, c :: t =>
    if pat ≠ [] ∧ pat.isPrefixOf (c :: t) ∧ boundaryBefore prev pat = true ∧
        boundaryAfter pat ((c :: t).drop pat.length) = true then
      rep ++ replaceWordAllGo pat rep (pat.length - 1) (patLastWord pat) t
    else
      c :: replaceWordAllGo pat rep 0 (isJsWordChar c) t

/-- `str.replace(/\bpat\b/g, rep)`. -/
def replaceWordAll (pat rep : List Char) (s : List Char) : List Char :=
  replaceWordAllGo pat rep 0 false s

/-- `fuzzyNorm(s)` from background.js:
`normalize(s).replace(/\bnite\b/g,"night").replace(/\bmidnight\b/g,"midnigh")`
`.replace(/\bmidnite\b/g,"midnigh").replace(/\bmid night\b/g,"midnigh")`
`.replace(/\btha\b/g,"the").replace(/\s+/g," ").trim()`. -/
def fuzzyNorm (s : Option String) : String :=
  ⟨jsTrim (collapseWs
    (replaceWordAll "tha".data "the".data
      (replaceWordAll "mid night".data "midnigh".data
        (replaceWordAll "midnite".data "midnigh".data
          (replaceWordAll "midnight".data "midnigh".data
            (replaceWordAll "nite".data "night".data
              (normalize s).data))))))⟩

/-! ## Query splitter: `parseArtistTrack` -/

/-- `{artist, track}` as returned by `parseArtistTrack`. -/
structure ParsedQuery where
  artist : String
  track : String
deriving DecidableEq, Repr

/-- `String.prototype.indexOf(sub)`: index of the first occurrence of `sub`,
`none` for JS's `-1`. -/
def firstIdxOf (sub : List Char) : List Char → Option Nat
  | [] => if sub = [] then some 0 else none
  | c :: t => if sub.isPrefixOf (c :: t) then some 0 else (firstIdxOf sub t).map (· + 1)

/-- The separator priority list of `parseArtistTrack`:
`[" | ", " - ", " – ", " — ", ": "]` (space-hyphen-space, space-en-dash-space,
space-em-dash-space). -/
def SEPS : List (List Char) :=
  [" | ".data, " - ".data, " – ".data, " — ".data, ": ".data]

/-- The `for` loop of `parseArtistTrack`: try each separator in order; the
first whose first occurrence is at index `> 0` splits the query; a leading
or absent separator falls through to the next one. -/
def parseArtistTrackGo (q : List Char) : List (List Char) → ParsedQuery
  | [] => ⟨"", ⟨q⟩⟩
  | sep :: rest =>
    match firstIdxOf sep q with
    | some idx =>
      if 0 < idx then
        ⟨⟨jsTrim (q.take idx)⟩, ⟨jsTrim (q.drop (idx + sep.length))⟩⟩
      else parseArtistTrackGo q rest
    | none => parseArtistTrackGo q rest

/-- `parseArtistTrack(query)` from background.js. -/
def parseArtistTrack (query : String) : ParsedQuery :=
  parseArtistTrackGo query.data SEPS

/-! ## Track matcher -/

/-- `String.prototype.split(" ")` (literal single-space separator; empty
fields are kept, as in JS). -/
def jsSplitSpace : List Char → List (List Char)
  | [] => [[]]
  | c :: t =>
    if c = ' ' then [] :: jsSplitSpace t
    else
      match jsSplitSpace t with
      | [] => [[c]]
      | seg :: rest => (c :: seg) :: rest

/-- `wordsContain(haystack, needle)` from background.js: every word of
`needle.split(" ")` occurs in `haystack.split(" ")`. -/
def wordsContain (haystack needle : String) : Bool :=
  (jsSplitSpace needle.data).all (fun w => (jsSplitSpace haystack.data).contains w)

/-- `computeMedian(sortedArr)` from background.js: `null` on empty input, the
middle element for odd length, the mean of the two middle elements for even
length. -/
def computeMedian (sortedArr : List ℚ) : Option ℚ :=
  let n := sortedArr.length
  if n = 0 then none
  else if n % 2 = 1 then some (sortedArr.getD (n / 2) 0)
  else some ((sortedArr.getD (n / 2 - 1) 0 + sortedArr.getD (n / 2) 0) / 2)

/-- One tracklist entry as delivered by the Discogs API: `title` and
`type_` may each be missing (`undefined`). -/
structure TracklistEntry where
  title : Option String
  type_ : Option String
deriving DecidableEq, Repr

/-- The skip guard `t.type_ && t.type_ !== "track"` of `tracklistContains`:
an entry is considered iff its `type_` is falsy (`undefined` or `""`) or
equals `"track"`. -/
def entryConsidered (t : TracklistEntry) : Bool :=
  match t.type_ with
  | none => true
  | some ty => ty = "" || ty = "track"

/-- The `for` loop body of `tracklistContains` for one entry. -/
def entryMatches (needle needleFuzzy : String) (isShort : Bool) (t : TracklistEntry) : Bool :=
  if !entryConsidered t then false
  else
    let title := normalize t.title
    if title = "" then false
    else if isShort then title = needle
    else
      wordsContain title needle || wordsContain needle title ||
      (let titleFuzzy := fuzzyNorm t.title
       wordsContain titleFuzzy needleFuzzy || wordsContain needleFuzzy titleFuzzy)

/-- `tracklistContains(tracklist, trackName)` from background.js. -/
def tracklistContains (tracklist : List TracklistEntry) (trackName : Option String) : Bool :=
  if tracklist.isEmpty || trackName = none || trackName = some "" then false
  else
    let needle := normalize trackName
    let needleFuzzy := fuzzyNorm trackName
    if needle = "" || needle.length < 2 then false
    else
      let isShort := needle.length ≤ 3
      tracklist.any (entryMatches needle needleFuzzy isShort)

/-! ## Condition grades -/

/-- `GRADE_RANK` from background.js: rank 1 (best) to 8 (worst). -/
def GRADE_RANK : List (String × Nat) :=
  [("Mint (M)", 1), ("Near Mint (NM or M-)", 2), ("Very Good Plus (VG+)", 3),
   ("Very Good (VG)", 4), ("Good Plus (G+)", 5), ("Good (G)", 6),
   ("Fair (F)", 7), ("Poor (P)", 8)]

/-- `isVGPlusOrBetter(grade)` from background.js: rank exists and is ≤ 3. -/
def isVGPlusOrBetter (grade : String) : Bool :=
  match (GRADE_RANK.lookup grade) with
  | some rank => rank ≤ 3
  | none => false

/-! ## Listing page parser: `parseFilteredPage`

Each JS regex of `parseFilteredPage` is compiled to a deterministic scanner.
All the regexes below juxtapose greedy pieces whose character classes are
disjoint at every junction (digits / whitespace / dashes / literal letters),
so maximal-munch scanning is exactly the JS backtracking semantics; the one
place where JS backtracking could produce a different *capture* on
adversarial input is noted at `shipCountryAt`. -/

/-- Case-insensitive (ASCII) literal prefix: consume `lit`, return the rest. -/
def stripPrefixCI : List Char → List Char → Option (List Char)
  | [], s => some s
  | _ :: _, [] => none
  | a :: la, c :: s => if jsToLower a = jsToLower c then stripPrefixCI la s else none

/-- Exact literal prefix: consume `lit`, return the rest. -/
def stripPrefixEx : List Char → List Char → Option (List Char)
  | [], s => some s
  | _ :: _, [] => none
  | a :: la, c :: s => if a = c then stripPrefixEx la s else none

/-- `\s+`: consume at least one whitespace character (greedy). -/
def jsWs1 : List Char → Option (List Char)
  | [] => none
  | c :: t => if jsWs c then some (t.dropWhile jsWs) else none

/-- `\d+`: consume at least one digit (greedy). -/
def digits1 (s : List Char) : Option (List Char) :=
  match s with
  | [] => none
  | c :: _ => if isDigit c then some (s.dropWhile isDigit) else none

/-- Does `p` hold at some suffix of the input (i.e. does an unanchored
pattern match somewhere)? -/
def anySuffix (p : List Char → Bool) : List Char → Bool
  | [] => p []
  | c :: t => p (c :: t) || anySuffix p t

/-- `parseInt(x, 10)` on a digit-only string, with the source's `|| 0`
fallback mapping the empty string (`NaN`) to 0. -/
def digitsToNat (l : List Char) : Nat :=
  l.foldl (fun n c => n * 10 + (c.toNat - '0'.toNat)) 0

/-- The inner separator class `[–—-]` of the pagination regex. -/
def isDashy (c : Char) : Bool := c = '-' || c = '–' || c = '—'

/-- The pagination regex `/\d+\s*[–—-]\s*\d+\s+of\s+([\d,]+)/`
tried at one position; returns the capture (the `[\d,]+` run). -/
def pagAt (s : List Char) : Option (List Char) := do
  let r1 ← digits1 s
  let r2 := r1.dropWhile jsWs
  let r3 ← match r2 with
    | c :: t => if isDashy c then some t else none
    | [] => none
  let r4 := r3.dropWhile jsWs
  let r5 ← digits1 r4
  let r6 ← jsWs1 r5
  let r7 ← stripPrefixEx "of".data r6
  let r8 ← jsWs1 r7
  let cap := r8.takeWhile (fun c => isDigit c || c = ',')
  if cap = [] then none else some cap

/-- `html.match(pagination regex)`: leftmost match's capture. -/
def findPag : List Char → Option (List Char)
  | [] => none
  | c :: t =>
    match pagAt (c :: t) with
    | some cap => some cap
    | none => findPag t

/-- One position of `/No\s+items\s+for\s+sale|0\s+results|Sorry,\s+no\s+results/i`. -/
def noResultsAt (s : List Char) : Bool :=
  (do
    let r1 ← stripPrefixCI "no".data s
    let r2 ← jsWs1 r1
    let r3 ← stripPrefixCI "items".data r2
    let r4 ← jsWs1 r3
    let r5 ← stripPrefixCI "for".data r4
    let r6 ← jsWs1 r5
    stripPrefixCI "sale".data r6).isSome ||
  (do
    let r1 ← stripPrefixEx "0".data s
    let r2 ← jsWs1 r1
    stripPrefixCI "results".data r2).isSome ||
  (do
    let r1 ← stripPrefixCI "sorry,".data s
    let r2 ← jsWs1 r1
    let r3 ← stripPrefixCI "no".data r2
    let r4 ← jsWs1 r3
    stripPrefixCI "results".data r4).isSome

/-- The "no results" test of `parseFilteredPage`. -/
def hasNoResults (s : List Char) : Bool := anySuffix noResultsAt s

/-- The listing marker regex `/Media[\s-]+Condition\s*:/i` tried at one
position; returns the rest after the consumed match. -/
def mediaCondAt (s : List Char) : Option (List Char) := do
  let r1 ← stripPrefixCI "media".data s
  let r2 ← match r1 with
    | c :: _ =>
      if jsWs c || c = '-' then some (r1.dropWhile (fun c => jsWs c || c = '-'))
      else none
    | [] => none
  let r3 ← stripPrefixCI "condition".data r2
  let r4 := r3.dropWhile jsWs
  match r4 with
  | ':' :: t => some t
  | _ => none

/-- `html.split(/Media[\s-]+Condition\s*:/i)`, producing the list of parts
between (non-overlapping, leftmost) marker matches.  A positive `skip` means
the scanner is inside a matched marker span, whose characters belong to no
part. -/
def splitMediaCondGo : Nat → List Char → List (List Char)
  | _ + 1, [] => [[]]
  | skip + 1, _ :: t => splitMediaCondGo skip t
  | 0, [] => [[]]
  | 0, c :: t =>
    match mediaCondAt (c :: t) with
    | some rest => [] :: splitMediaCondGo ((c :: t).length - rest.length - 1) t
    | none =>
      match splitMediaCondGo 0 t with
      | [] => [[c]]
      | seg :: rest => (c :: seg) :: rest

def splitMediaCond (s : List Char) : List (List Char) := splitMediaCondGo 0 s

/-- `(html.match(/Media[\s-]+Condition\s*:/gi) || []).length`: the global
match and the split use the same pattern and the same non-overlapping
leftmost matches, so the count is one less than the number of parts. -/
def mediaCondCount (s : List Char) : Nat := (splitMediaCond s).length - 1

/-- Total-extraction step of `parseFilteredPage` (lines "Total count from
pagination header"): returns `(total, hasPagination)`. -/
def extractTotal (html : List Char) : Nat × Bool :=
  match findPag html with
  | some cap => (digitsToNat (cap.filter (· ≠ ',')), true)
  | none =>
    if hasNoResults html then (0, false)
    else (mediaCondCount html, false)

/-- `/\$[\d,.]/.test(block)`: a dollar sign immediately followed by a digit,
comma or dot. -/
def hasDollarAmount (block : List Char) : Bool :=
  anySuffix
    (fun s =>
      match s with
      | '$' :: c :: _ => isDigit c || c = ',' || c = '.'
      | _ => false)
    block

/-- The eight grade-label strings, in the alternation order of the source's
condition regex. -/
def GRADES : List String :=
  ["Mint (M)", "Near Mint (NM or M-)", "Very Good Plus (VG+)", "Very Good (VG)",
   "Good Plus (G+)", "Good (G)", "Fair (F)", "Poor (P)"]

/-- The grade alternation tried at one position (alternatives in order). -/
def gradeAt (s : List Char) : Option String :=
  GRADES.findSome? (fun g => if g.data.isPrefixOf s then some g else none)

/-- The skippable prefix `[\s]*(?:<[^>]*>\s*)*` of the condition regex:
whitespace and complete `<...>` tags.  A positive `skip` is the remainder of
a tag being dropped. -/
def condSkipGo : Nat → List Char → List Char
  | _ + 1, [] => []
  | skip + 1, _ :: t => condSkipGo skip t
  | 0, [] => []
  | 0, c :: t =>
    if jsWs c then condSkipGo 0 t
    else if c = '<' && t.contains '>' then
      condSkipGo ((t.takeWhile (· ≠ '>')).length + 1) t
    else c :: t

def condSkip (s : List Char) : List Char := condSkipGo 0 s

/-- `block.match(/[\s]*(?:<[^>]*>\s*)*(Mint \(M\)|...|Poor \(P\))/)`:
capture of the leftmost position where whitespace/tag skipping reaches a
grade label. -/
def findCondGrade : List Char → Option String
  | [] => none
  | c :: t =>
    match gradeAt (condSkip (c :: t)) with
    | some g => some g
    | none => findCondGrade t

/-- One position of `/Ships\s+From\s*:/i`. -/
def shipsFromAt (s : List Char) : Bool :=
  (do
    let r1 ← stripPrefixCI "ships".data s
    let r2 ← jsWs1 r1
    let r3 ← stripPrefixCI "from".data r2
    let r4 := r3.dropWhile jsWs
    match r4 with
    | ':' :: t => some t
    | _ => none).isSome

/-- `/Ships\s+From\s*:/i.test(block)`. -/
def hasShipsFrom (block : List Char) : Bool := anySuffix shipsFromAt block

/-- `[A-Za-z]`. -/
def isAsciiAlpha (c : Char) : Bool := ('a' ≤ c && c ≤ 'z') || ('A' ≤ c && c ≤ 'Z')

/-- One position of `/Ships\s+From:\s*(?:<[^>]*>\s*)*([A-Za-z\s]+)/i` (note:
no `\s*` before the `:` in this second regex); returns the captured
country run.  Maximal-munch reading: since `\s` occurs both in the skippable
prefix and in the capture class, JS backtracking could, on adversarial input
where the maximal skip is followed by a non-letter, still succeed with a
pure-whitespace capture; such a capture trims to `""` and never passes the
`United States` test, and no claim below depends on that corner. -/
def shipCountryAt (s : List Char) : Option (List Char) := do
  let r1 ← stripPrefixCI "ships".data s
  let r2 ← jsWs1 r1
  let r3 ← stripPrefixCI "from".data r2
  let r4 ← match r3 with
    | ':' :: t => some t
    | _ => none
  let r5 := condSkip r4
  let cap := r5.takeWhile (fun c => isAsciiAlpha c || jsWs c)
  if cap = [] then none else some cap

/-- `block.match(ships-from capture regex)`: leftmost capture. -/
def findShipCountry : List Char → Option (List Char)
  | [] => none
  | c :: t =>
    match shipCountryAt (c :: t) with
    | some cap => some cap
    | none => findShipCountry t

/-- Case-insensitive substring test (`/lit/i.test(s)`). -/
def containsCI (lit : List Char) (s : List Char) : Bool :=
  anySuffix (fun u => (stripPrefixCI lit u).isSome) s

/-- The US-filter check of `parseFilteredPage`:
`shipMatch` exists and its trimmed capture contains `United States`
case-insensitively. -/
def usCountryOk (block : List Char) : Bool :=
  match findShipCountry block with
  | none => false
  | some cap => containsCI "united states".data (jsTrim cap)

/-- One match of the price regex `/(\+)?(?:about\s+)?\$([\d,.]+)/g`. -/
structure PriceMatch where
  /-- group 1 (`+` prefix) matched -/
  plus : Bool
  /-- the optional `about\s+` group matched (`pm[0].indexOf("about") >= 0`) -/
  about : Bool
  /-- the 20-character look-back `/shipping\s*$/i.test(before)` -/
  shipBefore : Bool
  /-- group 2: the `[\d,.]+` run -/
  numStr : List Char
deriving DecidableEq, Repr

/-- `/shipping\s*$/i.test(block.substring(max(0, idx-20), idx))`, computed on
the reversed prefix before the match: take the 20-character window, strip
the whitespace adjacent to the match, and look for "shipping" (reversed,
case-insensitively). -/
def shippingLookback (rev : List Char) : Bool :=
  (stripPrefixCI "gnippihs".data ((rev.take 20).dropWhile jsWs)).isSome

/-- The price regex tried at one position; `rev` is the reversed prefix of
the block before this position.  Returns the consumed length and the match
data. -/
def priceMatchAt (rev : List Char) (s : List Char) : Option (Nat × PriceMatch) :=
  let (plus, s1) :=
    match s with
    | '+' :: t => (true, t)
    | _ => (false, s)
  let (about, s2) :=
    match (do
      let r ← stripPrefixEx "about".data s1
      jsWs1 r) with
    | some r => (true, r)
    | none => (false, s1)
  match s2 with
  | '$' :: t =>
    let num := t.takeWhile (fun c => isDigit c || c = ',' || c = '.')
    if num = [] then none
    else some (s.length - (t.length - num.length), ⟨plus, about, shippingLookback rev, num⟩)
  | _ => none

/-- All matches of the global price regex, left to right, each scan resuming
after the previous match (`lastIndex` semantics).  A positive `skip` is the
remainder of the previous match being passed over; `rev` accumulates the
reversed prefix for the look-back windows. -/
def priceScanGo : Nat → List Char → List Char → List PriceMatch
  | _ + 1, _, [] => []
  | skip + 1, rev, c :: t => priceScanGo skip (c :: rev) t
  | 0, _, [] => []
  | 0, rev, c :: t =>
    match priceMatchAt rev (c :: t) with
    | some (n, pm) => pm :: priceScanGo (n - 1) (c :: rev) t
    | none => priceScanGo 0 (c :: rev) t

def priceMatches (block : List Char) : List PriceMatch := priceScanGo 0 [] block

/-- `parseFloat` on the comma-stripped `[\d.]`-run: longest decimal-literal
prefix, `none` for `NaN`. -/
def parseJsFloat (l : List Char) : Option ℚ :=
  let ip := l.takeWhile isDigit
  let r := l.dropWhile isDigit
  match r with
  | '.' :: t =>
    let fp := t.takeWhile isDigit
    if ip = [] ∧ fp = [] then none
    else some (mkRat (digitsToNat ip * 10 ^ fp.length + digitsToNat fp) (10 ^ fp.length))
  | _ => if ip = [] then none else some (digitsToNat ip)

/-- The `while ((pm = priceRegex.exec(block)) !== null)` loop of
`parseFilteredPage`: skip `+`-prefixed amounts, `about $X` annotations,
amounts preceded by "shipping", and non-positive/unparseable values; `break`
on the first accepted value. -/
def firstPriceLoop : List PriceMatch → Option ℚ
  | [] => none
  | pm :: rest =>
    if pm.plus then firstPriceLoop rest
    else if pm.about then firstPriceLoop rest
    else if pm.shipBefore then firstPriceLoop rest
    else
      match parseJsFloat (pm.numStr.filter (· ≠ ',')) with
      | some val => if 0 < val then some val else firstPriceLoop rest
      | none => firstPriceLoop rest

/-- The price extracted from one listing block. -/
def extractBlockPrice (block : List Char) : Option ℚ :=
  firstPriceLoop (priceMatches block)

/-- `if (lowest == null || val < lowest) lowest = val`. -/
def updateLowest (lowest : Option ℚ) (val : ℚ) : Option ℚ :=
  match lowest with
  | none => some val
  | some lo => if val < lo then some val else some lo

/-- The per-block body of the `for (li = 1; ...)` loop of
`parseFilteredPage`.  State: `(listingsOnPage, matched, prices, lowest)`. -/
def parseBlocksStep (usOnly vgPlus : Bool) (st : Nat × Nat × List ℚ × Option ℚ)
    (block : List Char) : Nat × Nat × List ℚ × Option ℚ :=
  let (onPage, matched, prices, lowest) := st
  if ¬hasDollarAmount block then st
  else
    match findCondGrade block with
    | none => st
    | some grade =>
      if ¬hasShipsFrom block then st
      else
        let onPage' := onPage + 1
        if vgPlus ∧ ¬isVGPlusOrBetter grade then (onPage', matched, prices, lowest)
        else if usOnly ∧ ¬usCountryOk block then (onPage', matched, prices, lowest)
        else
          match extractBlockPrice block with
          | some val => (onPage', matched + 1, prices ++ [val], updateLowest lowest val)
          | none => (onPage', matched + 1, prices, lowest)

/-- The whole listing loop over the split parts (the part before the first
marker is `parts[0]` and is skipped). -/
def parseBlocks (blocks : List (List Char)) (usOnly vgPlus : Bool) :
    Nat × Nat × List ℚ × Option ℚ :=
  blocks.foldl (parseBlocksStep usOnly vgPlus) (0, 0, [], none)

/-- The result record of `parseFilteredPage`. -/
structure PageParseResult where
  total : Nat
  listingsOnPage : Nat
  matched : Nat
  prices : List ℚ
  lowest : Option ℚ
deriving DecidableEq, Repr

/-- The two trailing fix-ups of `parseFilteredPage`:
`if (!hasPagination && listingsOnPage > 0) total = listingsOnPage;` and
`if (hasPagination && total > 0) { cap listingsOnPage and matched at total }`. -/
def pageFixup (total0 : Nat) (hasPagination : Bool) (onPage matched : Nat)
    (prices : List ℚ) (lowest : Option ℚ) : PageParseResult :=
  let total1 := if ¬hasPagination ∧ 0 < onPage then onPage else total0
  let onPage' := if hasPagination ∧ 0 < total1 ∧ total1 < onPage then total1 else onPage
  let matched' := if hasPagination ∧ 0 < total1 ∧ total1 < matched then total1 else matched
  ⟨total1, onPage', matched', prices, lowest⟩

/-- `parseFilteredPage(html, usOnly, vgPlus)` from background.js. -/
def parseFilteredPage (html : String) (usOnly vgPlus : Bool) : PageParseResult :=
  let h := html.data
  let (total0, hasPagination) := extractTotal h
  let parts := splitMediaCond h
  let (onPage, matched, prices, lowest) := parseBlocks parts.tail usOnly vgPlus
  pageFixup total0 hasPagination onPage matched prices lowest

/-! ## Price aggregation

`gatherPricing`, `buildResult`, `scrapeFilteredListings` and
`handleFilteredStats` interleave pure aggregation with network fetches.  The
embeddings below are their pure cores: every fetched page is supplied as an
already-parsed `PageParseResult` (for `scrapeFilteredListings`, the list of
pages that `fetch` would deliver in order; a short list models a failed
`res.ok` cutting paging short) and the Discogs price-suggestion lookup of
`gatherPricing` is supplied as an optional `(vgPlusPrice, nearMintPrice)`
record.  URL construction, message plumbing and DOM rendering are not
modelled; the display-value selection of the popup is (see
`showFilteredPrices`). -/

/-- `Array.prototype.sort((a, b) => a - b)` on a list of numbers: ascending
insertion sort (for numbers the comparator sorts ascending; stability is
irrelevant on values). -/
def sortQ (l : List ℚ) : List ℚ :=
  l.foldr (fun x acc => insertAsc x acc) []
where
  insertAsc (x : ℚ) : List ℚ → List ℚ
    | [] => [x]
    | y :: t => if x ≤ y then x :: y :: t else y :: insertAsc x t

/-- Per-entity pricing as produced by `gatherPricing` (the fields consumed by
`buildResult`). -/
structure EntityPricing where
  totalForSale : Nat
  lowestPrice : Option ℚ
  medianPrice : Option ℚ
  scrapedPrices : List ℚ
deriving DecidableEq, Repr

/-- Pure core of `gatherPricing(match, usOnly)`: the single sell-page fetch
is supplied as `pg?` (`none` when the fetch failed or was skipped).  Mirrors:
`if (pg.total > 0) totalForSale = pg.total; if (pg.prices.length > 0)
scrapedPrices = pg.prices; if (pg.lowest != null) lowestPrice = pg.lowest;`
then `medianPrice = computeMedian(scrapedPrices sorted)`.  The
price-suggestion fields are independent of these and are omitted here. -/
def gatherPricingPure (pg? : Option PageParseResult) : EntityPricing :=
  match pg? with
  | none => ⟨0, none, computeMedian [], []⟩
  | some pg =>
    let totalForSale := if 0 < pg.total then pg.total else 0
    let scrapedPrices := if pg.prices ≠ [] then pg.prices else []
    let lowestPrice := pg.lowest
    ⟨totalForSale, lowestPrice, computeMedian (sortQ scrapedPrices), scrapedPrices⟩

/-- The aggregate-statistics fields of the object returned by
`buildResult` (the per-match display details, sorting of the match list and
price-suggestion minima do not feed back into these fields and are omitted). -/
structure AggregateStats where
  numForSale : Nat
  lowestPrice : Option ℚ
  medianPrice : Option ℚ
deriving DecidableEq, Repr

/-- The per-entity accumulation step of `buildResult`'s `for` loop, restricted
to `totalForSale`, `globalLowest` and `allPrices`:
`totalForSale += p.totalForSale`; `globalLowest` takes the minimum non-null
`p.lowestPrice`; `allPrices` receives each entity's `scrapedPrices` when
non-empty, else its `lowestPrice` and `medianPrice` when non-null. -/
def buildResultStep (st : Nat × Option ℚ × List ℚ) (p : EntityPricing) :
    Nat × Option ℚ × List ℚ :=
  let (total, globalLowest, allPrices) := st
  let total' := total + p.totalForSale
  let globalLowest' :=
    match p.lowestPrice with
    | none => globalLowest
    | some lp =>
      match globalLowest with
      | none => some lp
      | some g => if lp < g then some lp else some g
  let allPrices' :=
    if p.scrapedPrices ≠ [] then allPrices ++ p.scrapedPrices
    else
      allPrices ++
        (match p.lowestPrice with | some lp => [lp] | none => []) ++
        (match p.medianPrice with | some mp => [mp] | none => [])
  (total', globalLowest', allPrices')

/-- Aggregate-statistics core of `buildResult(matches, ...)`: fold the loop
over the per-entity pricings, then
`allPrices.sort(...); medianPrice = computeMedian(allPrices)`. -/
def buildResultStats (ps : List EntityPricing) : AggregateStats :=
  let (total, globalLowest, allPrices) := ps.foldl buildResultStep (0, none, [])
  ⟨total, globalLowest, computeMedian (sortQ allPrices)⟩

/-- `Math.round`: round half toward positive infinity. -/
def jsRound (q : ℚ) : ℤ := ⌊q + 1 / 2⌋

/-- The record returned by `scrapeFilteredListings`.  `scrapedTotal` is
`Option` because the early zero-total return omits the field (`undefined`;
an aggregate sum with it would be `NaN`, modelled as `none`). -/
structure FilteredScrape where
  numForSale : Nat
  scrapedTotal : Option Nat
  lowestPrice : Option ℚ
  medianPrice : Option ℚ
deriving DecidableEq, Repr

/-- The page loop of `scrapeFilteredListings`: pages are consumed from
`pages` (at most `MAX_SCRAPE_PAGES = 2`; a missing next page models
`!res.ok`).  Accumulates `(totalOnPages, allMatched, allPrices, lowestPrice)`
and stops when a page has fewer than 25 listings or the accumulated on-page
count reaches `totalListings`. -/
def scrapePagesLoop (totalListings : Nat) :
    Nat → (Nat × Nat × List ℚ × Option ℚ) → List PageParseResult →
    Nat × Nat × List ℚ × Option ℚ
  | _, st, [] => st
  | 0, st, _ => st
  | budget + 1, st, pg :: rest =>
    let (totalOnPages, allMatched, allPrices, lowest) := st
    let totalOnPages' := totalOnPages + pg.listingsOnPage
    let allMatched' := allMatched + pg.matched
    let allPrices' := allPrices ++ pg.prices
    let lowest' :=
      match pg.lowest with
      | none => lowest
      | some pl =>
        match lowest with
        | none => some pl
        | some lo => if pl < lo then some pl else some lo
    let st' := (totalOnPages', allMatched', allPrices', lowest')
    if pg.listingsOnPage < 25 ∨ totalListings ≤ totalOnPages' then st'
    else scrapePagesLoop totalListings budget st' rest

/-- Pure core of `scrapeFilteredListings(sellUrl, usOnly, vgPlus)` over the
already-parsed pages.  An empty `pages` list models the first fetch failing
(`!res.ok` then `break`): every count stays 0 and the median is
`computeMedian([]) = null`.  When page 1 reports `total == 0` the source
returns early with `{numForSale: 0, lowestPrice: null, medianPrice: null}`
(no `scrapedTotal` field).  Otherwise the matched count is extrapolated by
`Math.round(allMatched / totalOnPages * totalListings)` when not all
listings were fetched. -/
def scrapeFilteredListingsPure (pages : List PageParseResult) : FilteredScrape :=
  match pages with
  | [] => ⟨0, some 0, none, computeMedian (sortQ [])⟩
  | pg1 :: rest =>
    let totalListings := pg1.total
    if totalListings = 0 then ⟨0, none, none, none⟩
    else
      let (totalOnPages, allMatched, allPrices, lowest) :=
        scrapePagesLoop totalListings 2 (0, 0, [], none) (pg1 :: rest)
      let medianPrice := computeMedian (sortQ allPrices)
      let matchedCount :=
        if totalOnPages < totalListings ∧ 0 < totalOnPages then
          (jsRound (mkRat (allMatched * totalListings) totalOnPages)).toNat
        else allMatched
      ⟨matchedCount, some totalListings, lowest, medianPrice⟩

/-- The record returned by `handleFilteredStats` (aggregate part plus the
per-entity stats list sent to the popup). -/
structure FilteredStats where
  numForSale : Nat
  scrapedTotal : Option Nat
  lowestPrice : Option ℚ
  medianPrice : Option ℚ
  matchStats : List FilteredScrape
deriving DecidableEq, Repr

/-- Option-valued sum: `undefined + n` is `NaN` (`none`), mirroring
`scrapedTotal += stats.scrapedTotal` when a summand lacks the field. -/
def addScrapedTotal (a : Option Nat) (b : Option Nat) : Option Nat :=
  match a, b with
  | some x, some y => some (x + y)
  | _, _ => none

/-- Pure core of `handleFilteredStats(matches, usOnly, vgPlus)`: one
`FilteredScrape` per match with a sell URL (matches without one are skipped
by the source before scraping and are simply not in the input list).
`totalForSale` sums, `allLowest` takes the minimum, and — the point of claim
C2 — `allMedians` collects the per-entity `medianPrice` values and the
aggregate `medianPrice` is `computeMedian(allMedians sorted)`. -/
def handleFilteredStatsPure (scrapes : List FilteredScrape) : FilteredStats :=
  let totalForSale := (scrapes.map (·.numForSale)).sum
  let scrapedTotal := (scrapes.map (·.scrapedTotal)).foldl addScrapedTotal (some 0)
  let allLowest :=
    scrapes.foldl
      (fun lo s =>
        match s.lowestPrice with
        | none => lo
        | some lp =>
          match lo with
          | none => some lp
          | some g => if lp < g then some lp else some g)
      none
  let allMedians := scrapes.filterMap (·.medianPrice)
  let overallMedian := computeMedian (sortQ allMedians)
  ⟨totalForSale, scrapedTotal, allLowest, overallMedian, scrapes⟩

/-! ## Popup display selection (`showFilteredData`, popup.js)

Only the value-selection logic (which numbers are displayed) is embedded;
the HTML rendering around it is display plumbing. -/

/-- The global (unfiltered) aggregate as the popup holds it
(`cachedData.global`). -/
structure GlobalStats where
  numForSale : Nat
  lowestPrice : Option ℚ
  medianPrice : Option ℚ
  vgPlusPrice : Option ℚ
  lowestGrade : Option String
deriving DecidableEq, Repr

/-- The stats the popup passes to `renderStats` in `showFilteredData`. -/
structure DisplayedStats where
  numForSale : Nat
  lowestPrice : Option ℚ
  medianPrice : Option ℚ
  vgPlusPrice : Option ℚ
  lowestGrade : Option String
deriving DecidableEq, Repr

/-- The price-selection logic of `showFilteredData(fData, matches)` for the
main statistics card (popup.js lines 229-255):
`cappedTotal = Math.min(fData.numForSale, g.numForSale || Infinity)`;
`useScrapedPrices = vg || cappedTotal < (g.numForSale || 0)`;
display the scraped lowest/median when available, else fall back to the
global aggregate's values; everything is `null` when `cappedTotal` is 0. -/
def showFilteredPrices (g : GlobalStats) (fLowest fMedian : Option ℚ)
    (fNumForSale : Nat) (vg : Bool) : DisplayedStats :=
  let cappedTotal := if g.numForSale = 0 then fNumForSale else min fNumForSale g.numForSale
  let useScrapedPrices := vg || decide (cappedTotal < g.numForSale)
  let displayLowest :=
    if 0 < cappedTotal then
      if useScrapedPrices then
        match fLowest with
        | some v => some v
        | none => g.lowestPrice
      else g.lowestPrice
    else none
  let displayMedian :=
    if 0 < cappedTotal then
      if useScrapedPrices then
        match fMedian with
        | some v => some v
        | none => g.medianPrice
      else g.medianPrice
    else none
  ⟨cappedTotal, displayLowest, displayMedian,
   if 0 < cappedTotal then g.vgPlusPrice else none,
   if useScrapedPrices then none else g.lowestGrade⟩

/-- `showFilteredData` applied to a `handleFilteredStats` response:
`fData.lowestPrice`, `fData.medianPrice`, `fData.numForSale` feed the
selection above. -/
def showFilteredDataStats (g : GlobalStats) (fData : FilteredStats) (vg : Bool) :
    DisplayedStats :=
  showFilteredPrices g fData.lowestPrice fData.medianPrice fData.numForSale vg

/-- The per-match row selection of `showFilteredData` (popup.js lines
262-295): per-match capped count and the price shown for the row; `none`
models the "—"/"none for sale" row produced when the capped count is 0. -/
def showMatchRowPrice (mNumForSale : Nat) (mLowest : Option ℚ)
    (msRaw : FilteredScrape) (vg : Bool) : Nat × Option ℚ :=
  let msNum := if mNumForSale = 0 then msRaw.numForSale else min msRaw.numForSale mNumForSale
  let useMatchScraped := vg || decide (msNum < mNumForSale)
  let msPrice :=
    if useMatchScraped then
      match msRaw.lowestPrice with
      | some v => some v
      | none => mLowest
    else mLowest
  (msNum, if 0 < msNum then msPrice else none)

/-! ## Claim-side definitions

The definitions in this section are *not* translations of the source: they
restate, in direct mathematical form, what the specification claims, and the
claim theorems below compare them with the source embeddings above. -/

/-- Claim side (C6): a separator is "good" for a query when its first
occurrence is at an index greater than zero. -/
def goodSep (q : List Char) (sep : List Char) : Bool :=
  match firstIdxOf sep q with
  | some n => 0 < n
  | none => false

/-- Claim side (C5): whole-word-set containment — every word of `needle`
(split at single spaces) occurs among the words of `hay`. -/
def wordSetContain (hay needle : String) : Prop :=
  ∀ w ∈ jsSplitSpace needle.data, w ∈ jsSplitSpace hay.data

instance (hay needle : String) : Decidable (wordSetContain hay needle) := by
  unfold wordSetContain; infer_instance

/-- Claim side (C7): the value of one price-regex match when it is a valid
listing amount — not a `+` shipping add-on, not an `about $X` annotation,
not preceded by "shipping", and parsing to a positive number. -/
def acceptedPrice (pm : PriceMatch) : Option ℚ :=
  if pm.plus ∨ pm.about ∨ pm.shipBefore then none
  else
    match parseJsFloat (pm.numStr.filter (· ≠ ',')) with
    | some v => if 0 < v then some v else none
    | none => none

/-- Claim side (C7): the first valid financial amount among the price-regex
matches of a block. -/
def firstValidAmount (block : List Char) : Option ℚ :=
  (priceMatches block).findSome? acceptedPrice

/-- A split part is a validated (non-phantom) listing block: it has a dollar
amount, a recognised grade, and a "Ships From:" marker. -/
def blockValidated (b : List Char) : Bool :=
  hasDollarAmount b && (findCondGrade b).isSome && hasShipsFrom b

/-- A validated block that also survives the active filters. -/
def blockPassesFilters (usOnly vgPlus : Bool) (b : List Char) : Bool :=
  hasDollarAmount b &&
  (match findCondGrade b with
   | none => false
   | some grade =>
     hasShipsFrom b && (!vgPlus || isVGPlusOrBetter grade) && (!usOnly || usCountryOk b))

/-- Claim side (C2): the pooled per-listing prices of a list of per-entity
pricings (each entity's scraped per-listing prices, concatenated). -/
def pooledScrapedPrices (ps : List EntityPricing) : List ℚ :=
  (ps.map (·.scrapedPrices)).flatten

/-- Claim side (C2): the pooled per-listing prices over per-entity page
lists, as scraped for the filtered statistics. -/
def pooledPagePrices (pagess : List (List PageParseResult)) : List ℚ :=
  (pagess.map (fun pgs => (pgs.map (·.prices)).flatten)).flatten

/-! ## Proof-layer definitions for the normalizer theorems -/

/-- Words joined by single spaces. -/
def joinWords : List (List Char) → List Char
  | [] => []
  | [w] => w
  | w :: ws => w ++ ' ' :: joinWords ws

/-- A word as produced by `normalize`: non-empty, all lowercase
alphanumeric. -/
def GoodWord (w : List Char) : Prop :=
  w ≠ [] ∧ ∀ c ∈ w, isLowerAlnum c = true

def GoodWords (ws : List (List Char)) : Prop := ∀ w ∈ ws, GoodWord w

/-- Canonical-output shape of `normalize`: only lowercase alphanumerics and
spaces, no two adjacent spaces, no leading or trailing space. -/
def Canon (l : List Char) : Prop :=
  (∀ c ∈ l, isLowerAlnum c = true ∨ c = ' ') ∧
  List.Chain' (fun a b => ¬(a = ' ' ∧ b = ' ')) l ∧
  l.head? ≠ some ' ' ∧ l.getLast? ≠ some ' '

/-- Word-level form of a single-word `\b`-substitution. -/
def substWord (pat rep w : List Char) : List Char :=
  if w = pat then rep else w

/-- Word-level form of the two-word substitution
`/\bmid night\b/g → rep`: rewrite each (non-overlapping, leftmost)
adjacent pair `(w1, w2)` to `rep`. -/
def pairSubst (w1 w2 rep : List Char) : List (List Char) → List (List Char)
  | a :: b :: rest =>
    if a = w1 ∧ b = w2 then rep :: pairSubst w1 w2 rep rest
    else a :: pairSubst w1 w2 rep (b :: rest)
  | l => l

/-- The five passes of `fuzzyNorm`, at word level. -/
def fuzzySubstWords (ws : List (List Char)) : List (List Char) :=
  (pairSubst "mid".data "night".data "midnigh".data
      (((ws.map (substWord "nite".data "night".data)).map
          (substWord "midnight".data "midnigh".data)).map
        (substWord "midnite".data "midnigh".data))).map
    (substWord "tha".data "the".data)

/-- Suffix shape at a word end inside a canonical string: either the string
ends, or a separating space follows. -/
def WordSep (tail : List Char) : Prop := tail = [] ∨ ∃ t', tail = ' ' :: t'

/-! ## Helper lemmas: staging of `parseFilteredPage` -/

theorem parseFilteredPage_eq (html : String) (u v : Bool) :
    parseFilteredPage html u v =
      pageFixup (extractTotal html.data).1 (extractTotal html.data).2
        (parseBlocks (splitMediaCond html.data).tail u v).1
        (parseBlocks (splitMediaCond html.data).tail u v).2.1
        (parseBlocks (splitMediaCond html.data).tail u v).2.2.1
        (parseBlocks (splitMediaCond html.data).tail u v).2.2.2 := by
  unfold parseFilteredPage
  rcases hE : extractTotal html.data with ⟨t0, hp⟩
  rcases hB : parseBlocks (splitMediaCond html.data).tail u v with ⟨o, m, ps, lo⟩
  simp [hE, hB]

theorem pageFixup_pag_pos (t0 : Nat) (o m : Nat) (ps : List ℚ) (lo : Option ℚ)
    (hpos : 0 < t0) :
    (pageFixup t0 true o m ps lo).total = t0 ∧
    (pageFixup t0 true o m ps lo).listingsOnPage ≤ t0 ∧
    (pageFixup t0 true o m ps lo).matched ≤ t0 := by
  simp only [pageFixup]
  split_ifs <;> simp_all <;> omega

theorem pageFixup_noPag_pos (t0 : Nat) (o m : Nat) (ps : List ℚ) (lo : Option ℚ)
    (hpos : 0 < o) :
    pageFixup t0 false o m ps lo = ⟨o, o, m, ps, lo⟩ := by
  simp [pageFixup, hpos]

theorem pageFixup_noPag_zero (t0 : Nat) (m : Nat) (ps : List ℚ) (lo : Option ℚ) :
    pageFixup t0 false 0 m ps lo = ⟨t0, 0, m, ps, lo⟩ := by
  simp [pageFixup]

/-! ## Helper lemmas: the block loop -/

/-- Each iteration of the listing loop either leaves the state unchanged
(phantom block) or increments `listingsOnPage` by exactly one. -/
theorem parseBlocksStep_cases (u v : Bool) (st : Nat × Nat × List ℚ × Option ℚ)
    (b : List Char) :
    parseBlocksStep u v st b = st ∨ (parseBlocksStep u v st b).1 = st.1 + 1 := by
  rcases st with ⟨o, m, ps, lo⟩
  unfold parseBlocksStep
  dsimp only
  split_ifs <;> try (left; rfl)
  all_goals (rcases h : findCondGrade b with _ | g <;> simp [h])
  all_goals split_ifs <;> try simp
  all_goals (rcases extractBlockPrice b with _ | val <;> simp)

theorem parseBlocks_fold_mono (u v : Bool) (bs : List (List Char))
    (st : Nat × Nat × List ℚ × Option ℚ) :
    st.1 ≤ (bs.foldl (parseBlocksStep u v) st).1 := by
  induction bs generalizing st with
  | nil => simp
  | cons b bs ih =>
    simp only [List.foldl_cons]
    rcases parseBlocksStep_cases u v st b with h | h
    · rw [h]; exact ih st
    · calc st.1 ≤ (parseBlocksStep u v st b).1 := by omega
        _ ≤ _ := ih _

theorem parseBlocks_fold_stays (u v : Bool) (bs : List (List Char))
    (st : Nat × Nat × List ℚ × Option ℚ)
    (h : (bs.foldl (parseBlocksStep u v) st).1 = st.1) :
    bs.foldl (parseBlocksStep u v) st = st := by
  induction bs generalizing st with
  | nil => simp
  | cons b bs ih =>
    simp only [List.foldl_cons] at h ⊢
    rcases parseBlocksStep_cases u v st b with hc | hc
    · rw [hc] at h ⊢; exact ih st h
    · exfalso
      have := parseBlocks_fold_mono u v bs (parseBlocksStep u v st b)
      omega

/-- If no block validates, the whole loop state is untouched. -/
theorem parseBlocks_eq_zero (u v : Bool) (bs : List (List Char))
    (h : (parseBlocks bs u v).1 = 0) :
    parseBlocks bs u v = (0, 0, [], none) := by
  unfold parseBlocks at *
  exact parseBlocks_fold_stays u v bs (0, 0, [], none) h

/-! ## Claim C1 -/

/-- C1 (code bug): the claim says non-USD amounts (`€`, `£`, `CA$`) are
converted to USD via a supplied rate table.  The source's
`parseFilteredPage(html, usOnly, vgPlus)` takes no rate table and its price
regex recognises only `$` amounts, so on the repository's own currency-test
input (`discogs-preview.test.js`, "extracts euro-only listing and converts
to USD") the listing matches but yields *no* price at all — the `€25.00` is
not an amount to it and the `about $28.12` annotation is skipped; on the
`CA$30.00` test input it takes the amount as plain `$30.00` without
conversion (the test expects `30.00 / 1.368 = 21.93`). -/
theorem C1_no_currency_conversion :
    parseFilteredPage
        "1 - 25 of 5 Media Condition: Very Good Plus (VG+) Sleeve Condition: VG €25.00 about $28.12 Ships From: Germany"
        false false = ⟨5, 1, 1, [], none⟩ ∧
    parseFilteredPage
        "1 - 25 of 5 Media Condition: Very Good Plus (VG+) Sleeve Condition: VG CA$30.00 Ships From: Canada"
        false false = ⟨5, 1, 1, [30], some 30⟩ := by
  exact ⟨by decide, by decide⟩

/-! ## Claim C4 -/

/-- C4 (counterexample): the claim's guarantees fail as stated.
(a) On `"1 - 0 of 0 …"` a pagination total *is* found (it is 0), the cap is
skipped (`total > 0` fails), and `onPageCount = 1 > 0 = total`.
(b) On a page whose only condition marker is sidebar noise (no `$` amount in
the block), no pagination is found, no block validates
(`onPageCount = 0`), yet `total` is the stray marker count 1, not
`onPageCount`. -/
theorem C4_cex :
    ((extractTotal "1 - 0 of 0 Media Condition: Mint (M) $5.00 Ships From: United States".data).2 = true ∧
     (parseFilteredPage "1 - 0 of 0 Media Condition: Mint (M) $5.00 Ships From: United States" false false).total = 0 ∧
     (parseFilteredPage "1 - 0 of 0 Media Condition: Mint (M) $5.00 Ships From: United States" false false).listingsOnPage = 1) ∧
    ((extractTotal "Media-Condition: stray sidebar text".data).2 = false ∧
     (parseFilteredPage "Media-Condition: stray sidebar text" false false).listingsOnPage = 0 ∧
     (parseFilteredPage "Media-Condition: stray sidebar text" false false).total = 1) := by
  exact ⟨⟨by decide, by decide, by decide⟩, ⟨by decide, by decide, by decide⟩⟩

/-- C4 (amended): when a pagination total is found **and is nonzero**,
`onPageCount ≤ total` and `matchedCount ≤ total`; when no pagination
pattern is found **and at least one block validates**, the returned `total`
equals `onPageCount`. -/
theorem C4_amended_count_discipline (html : String) (u v : Bool) :
    ((extractTotal html.data).2 = true →
      0 < (parseFilteredPage html u v).total →
      (parseFilteredPage html u v).listingsOnPage ≤ (parseFilteredPage html u v).total ∧
      (parseFilteredPage html u v).matched ≤ (parseFilteredPage html u v).total) ∧
    ((extractTotal html.data).2 = false →
      0 < (parseBlocks (splitMediaCond html.data).tail u v).1 →
      (parseFilteredPage html u v).total = (parseFilteredPage html u v).listingsOnPage) := by
  rw [parseFilteredPage_eq]
  rcases hE : extractTotal html.data with ⟨t0, hp⟩
  rcases hB : parseBlocks (splitMediaCond html.data).tail u v with ⟨o, m, ps, lo⟩
  dsimp only
  constructor
  · rintro rfl hpos
    have htot : (pageFixup t0 true o m ps lo).total = t0 := by
      simp [pageFixup]
    rw [htot] at hpos ⊢
    exact ⟨(pageFixup_pag_pos t0 o m ps lo hpos).2.1,
           (pageFixup_pag_pos t0 o m ps lo hpos).2.2⟩
  · rintro rfl hpos
    rw [pageFixup_noPag_pos t0 o m ps lo hpos]

/-- C4 (witness): the amended guarantees at concrete pages: a 3-marker page
whose pagination says 2 has its counts capped to 2, and a pagination-free
single-listing page reports `total = onPageCount`. -/
theorem C4_amended_witness :
    ((parseFilteredPage "1 - 25 of 2 Media Condition: Mint (M) $5.00 Ships From: US Media Condition: Mint (M) $6.00 Ships From: US Media Condition: Mint (M) $7.00 Ships From: US" false false).listingsOnPage ≤
      (parseFilteredPage "1 - 25 of 2 Media Condition: Mint (M) $5.00 Ships From: US Media Condition: Mint (M) $6.00 Ships From: US Media Condition: Mint (M) $7.00 Ships From: US" false false).total ∧
     (parseFilteredPage "1 - 25 of 2 Media Condition: Mint (M) $5.00 Ships From: US Media Condition: Mint (M) $6.00 Ships From: US Media Condition: Mint (M) $7.00 Ships From: US" false false).matched ≤
      (parseFilteredPage "1 - 25 of 2 Media Condition: Mint (M) $5.00 Ships From: US Media Condition: Mint (M) $6.00 Ships From: US Media Condition: Mint (M) $7.00 Ships From: US" false false).total) ∧
    (parseFilteredPage "Media Condition: Near Mint (NM or M-) $4.00 Ships From: US" false false).total =
      (parseFilteredPage "Media Condition: Near Mint (NM or M-) $4.00 Ships From: US" false false).listingsOnPage := by
  exact ⟨(C4_amended_count_discipline
            "1 - 25 of 2 Media Condition: Mint (M) $5.00 Ships From: US Media Condition: Mint (M) $6.00 Ships From: US Media Condition: Mint (M) $7.00 Ships From: US"
            false false).1 (by decide) (by decide),
         (C4_amended_count_discipline
            "Media Condition: Near Mint (NM or M-) $4.00 Ships From: US"
            false false).2 (by decide) (by decide)⟩

/-! ## Claim C8 -/

/-- C8 (counterexample): the claim promises zero counts whenever there is no
recognizable pagination and no validated listing block.  On a page whose
only content is a stray sidebar condition marker, there is no pagination and
no block validates, yet `total` is fabricated as the stray-marker count 1
(the claim's "zero counts" fails for `total`). -/
theorem C8_cex :
    (extractTotal "Media Condition: sidebar junk".data).2 = false ∧
    (parseFilteredPage "Media Condition: sidebar junk" false false).listingsOnPage = 0 ∧
    (parseFilteredPage "Media Condition: sidebar junk" false false).total = 1 := by
  exact ⟨by decide, by decide, by decide⟩

/-- C8 (amended): `parseFilteredPage` is a total function (the embedding is
a plain function, every branch of the source returns a record).  For input
with no recognizable pagination and no validated listing block it returns
zero `onPageCount` and `matchedCount`, an empty price list and a null
lowest; `total` is 0 when a no-results phrase matched, and otherwise the
raw count of condition-marker occurrences (in particular it is 0 whenever
the page has no condition marker at all). -/
theorem C8_amended_graceful_degradation (html : String) (u v : Bool)
    (hpag : (extractTotal html.data).2 = false)
    (hval : (parseBlocks (splitMediaCond html.data).tail u v).1 = 0) :
    (parseFilteredPage html u v).listingsOnPage = 0 ∧
    (parseFilteredPage html u v).matched = 0 ∧
    (parseFilteredPage html u v).prices = [] ∧
    (parseFilteredPage html u v).lowest = none ∧
    (parseFilteredPage html u v).total =
      (if hasNoResults html.data then 0 else mediaCondCount html.data) := by
  have hB := parseBlocks_eq_zero u v (splitMediaCond html.data).tail hval
  rw [parseFilteredPage_eq, hB]
  rcases hE : extractTotal html.data with ⟨t0, hp⟩
  rw [hE] at hpag
  dsimp only at hpag ⊢
  subst hpag
  rw [pageFixup_noPag_zero]
  refine ⟨rfl, rfl, rfl, rfl, ?_⟩
  have : extractTotal html.data =
      ((if hasNoResults html.data then 0 else mediaCondCount html.data), false) := by
    unfold extractTotal at hE ⊢
    rcases hF : findPag html.data with _ | cap
    · split_ifs <;> rfl
    · rw [hF] at hE; exact absurd (congrArg Prod.snd hE) (by simp)
  rw [this] at hE
  exact (congrArg Prod.fst hE).symm

/-- C8 (witness): a page with no pagination, no marker and no listing
degrades to all-zero output. -/
theorem C8_amended_witness :
    (parseFilteredPage "just an unrelated page about $ nothing" false false).prices = [] ∧
    (parseFilteredPage "just an unrelated page about $ nothing" false false).lowest = none ∧
    (parseFilteredPage "just an unrelated page about $ nothing" false false).total = 0 := by
  have h := C8_amended_graceful_degradation "just an unrelated page about $ nothing" false false
    (by decide) (by decide)
  refine ⟨h.2.2.1, h.2.2.2.1, ?_⟩
  rw [h.2.2.2.2]
  decide

/-! ## Claim C3 -/

/-- C3 (counterexample): the claim says that with the VG+ filter active and a
nonzero filtered count the displayed lowest/median come *only* from the
freshly scraped filter-aware data.  Full pipeline refutation: the page
`"1 - 1 of 1 Media Condition: Mint (M) about $5.00 Ships From: France"` has
one matched VG+ listing whose only amount is an `about $` conversion
annotation, so the scrape reports `numForSale = 1` with null lowest/median;
`showFilteredData` then displays the cached unfiltered global aggregate's
lowest `9` and median `21`. -/
theorem C3_cex :
    (handleFilteredStatsPure [scrapeFilteredListingsPure
        [parseFilteredPage "1 - 1 of 1 Media Condition: Mint (M) about $5.00 Ships From: France" false true]]).numForSale = 1 ∧
    (handleFilteredStatsPure [scrapeFilteredListingsPure
        [parseFilteredPage "1 - 1 of 1 Media Condition: Mint (M) about $5.00 Ships From: France" false true]]).lowestPrice = none ∧
    (showFilteredDataStats ⟨5, some 9, some 21, some 30, some "VG"⟩
        (handleFilteredStatsPure [scrapeFilteredListingsPure
          [parseFilteredPage "1 - 1 of 1 Media Condition: Mint (M) about $5.00 Ships From: France" false true]])
        true).lowestPrice = some 9 ∧
    (showFilteredDataStats ⟨5, some 9, some 21, some 30, some "VG"⟩
        (handleFilteredStatsPure [scrapeFilteredListingsPure
          [parseFilteredPage "1 - 1 of 1 Media Condition: Mint (M) about $5.00 Ships From: France" false true]])
        true).medianPrice = some 21 := by
  exact ⟨by decide, by decide, by decide, by decide⟩

/-- C3 (amended): with VG+ active and a nonzero capped filtered count the
displayed lowest/median are the freshly scraped values *whenever those are
non-null*, and fall back to the cached unfiltered aggregate's values when
the scraped value is null; when the filtered count for the main scope is
zero both displayed prices are null, and a per-match row with zero filtered
count shows no price. -/
theorem C3_amended_price_selection (g : GlobalStats) (fData : FilteredStats)
    (mNum : Nat) (mLowest : Option ℚ) (ms : FilteredScrape) (vg : Bool) :
    (∀ v, vg = true → fData.lowestPrice = some v → 0 < fData.numForSale →
      (showFilteredDataStats g fData vg).lowestPrice = some v) ∧
    (∀ v, vg = true → fData.medianPrice = some v → 0 < fData.numForSale →
      (showFilteredDataStats g fData vg).medianPrice = some v) ∧
    (vg = true → fData.lowestPrice = none → 0 < (showFilteredDataStats g fData vg).numForSale →
      (showFilteredDataStats g fData vg).lowestPrice = g.lowestPrice) ∧
    (fData.numForSale = 0 →
      (showFilteredDataStats g fData vg).lowestPrice = none ∧
      (showFilteredDataStats g fData vg).medianPrice = none) ∧
    (ms.numForSale = 0 → (showMatchRowPrice mNum mLowest ms vg).2 = none) := by
  refine ⟨?_, ?_, ?_, ?_, ?_⟩
  · rintro v rfl hf hpos
    unfold showFilteredDataStats showFilteredPrices
    rw [hf]
    dsimp only
    split_ifs with h1 h2 <;> simp_all <;> omega
  · rintro v rfl hf hpos
    unfold showFilteredDataStats showFilteredPrices
    rw [hf]
    dsimp only
    split_ifs with h1 h2 <;> simp_all <;> omega
  · rintro rfl hf hpos
    unfold showFilteredDataStats showFilteredPrices at hpos ⊢
    rw [hf]
    dsimp only at hpos ⊢
    split_ifs with h1 <;> simp_all
  · intro hf0
    unfold showFilteredDataStats showFilteredPrices
    rw [hf0]
    dsimp only
    split_ifs <;> simp_all
  · intro hms
    unfold showMatchRowPrice
    rw [hms]
    dsimp only
    split_ifs <;> simp_all

/-- C3 (witness): the amended selection policy at concrete values: scraped
price 7 is displayed when present; with a null scraped lowest the global 9
is shown; a zero-count scope and a zero-count match row show nothing. -/
theorem C3_amended_witness :
    (showFilteredDataStats ⟨5, some 9, some 21, none, none⟩ ⟨2, some 2, some 7, some 8, []⟩ true).lowestPrice = some 7 ∧
    (showFilteredDataStats ⟨5, some 9, some 21, none, none⟩ ⟨1, some 1, none, none, []⟩ true).lowestPrice = some 9 ∧
    (showFilteredDataStats ⟨5, some 9, some 21, none, none⟩ ⟨0, some 0, none, none, []⟩ true).lowestPrice = none ∧
    (showMatchRowPrice 4 (some 11) ⟨0, some 0, none, none⟩ true).2 = none := by
  refine ⟨?_, ?_, ?_, ?_⟩
  · exact (C3_amended_price_selection ⟨5, some 9, some 21, none, none⟩ ⟨2, some 2, some 7, some 8, []⟩
      0 none ⟨0, some 0, none, none⟩ true).1 7 rfl (by decide) (by decide)
  · exact (C3_amended_price_selection ⟨5, some 9, some 21, none, none⟩ ⟨1, some 1, none, none, []⟩
      0 none ⟨0, some 0, none, none⟩ true).2.2.1 rfl (by decide) (by decide)
  · exact ((C3_amended_price_selection ⟨5, some 9, some 21, none, none⟩ ⟨0, some 0, none, none, []⟩
      0 none ⟨0, some 0, none, none⟩ true).2.2.2.1 (by decide)).1
  · exact (C3_amended_price_selection ⟨5, some 9, some 21, none, none⟩ ⟨0, some 0, none, none, []⟩
      4 (some 11) ⟨0, some 0, none, none⟩ true).2.2.2.2 (by decide)

/-! ## Claim C2 -/

/-- C2 (counterexample): three entities with per-listing prices `[10]`,
`[20]` and `[30, 90, 91]`.  The filtered-stats aggregation
(`handleFilteredStats`) reports median 20 — the median of the per-entity
medians `[10, 20, 90]` — while the median of the pooled, sorted per-listing
prices `[10, 20, 30, 90, 91]` is 30. -/
theorem C2_cex :
    (handleFilteredStatsPure
        [scrapeFilteredListingsPure [⟨1, 1, 1, [10], some 10⟩],
         scrapeFilteredListingsPure [⟨1, 1, 1, [20], some 20⟩],
         scrapeFilteredListingsPure [⟨3, 3, 3, [30, 90, 91], some 30⟩]]).medianPrice = some 20 ∧
    computeMedian (sortQ (pooledPagePrices
        [[⟨1, 1, 1, [10], some 10⟩], [⟨1, 1, 1, [20], some 20⟩],
         [⟨3, 3, 3, [30, 90, 91], some 30⟩]])) = some 30 ∧
    (some (20 : ℚ) ≠ some (30 : ℚ)) := by
  exact ⟨by decide, by decide, by decide⟩

/-- The `allPrices` accumulator of `buildResult` pools each entity's scraped
per-listing prices; an entity with no scraped prices contributes its
lowest/median fallback values, which are absent when both are null. -/
theorem buildResult_allPrices (ps : List EntityPricing)
    (h : ∀ p ∈ ps, p.scrapedPrices = [] → p.lowestPrice = none ∧ p.medianPrice = none) :
    ∀ (t : Nat) (lo : Option ℚ) (acc : List ℚ),
      (ps.foldl buildResultStep (t, lo, acc)).2.2 = acc ++ pooledScrapedPrices ps := by
  induction ps with
  | nil => intro t lo acc; simp [pooledScrapedPrices]
  | cons p ps ih =>
    intro t lo acc
    have hp := h p (by simp)
    have hrest : ∀ q ∈ ps, q.scrapedPrices = [] → q.lowestPrice = none ∧ q.medianPrice = none :=
      fun q hq => h q (by simp [hq])
    simp only [List.foldl_cons]
    rcases hS : buildResultStep (t, lo, acc) p with ⟨t2, lo2, acc2⟩
    have hacc : acc2 = acc ++ p.scrapedPrices := by
      have hproj := congrArg (fun x => x.2.2) hS
      dsimp only at hproj
      rw [← hproj]
      unfold buildResultStep
      dsimp only
      by_cases hsp : p.scrapedPrices = []
      · simp [hsp, (hp hsp).1, (hp hsp).2]
      · simp [hsp]
    rw [ih hrest t2 lo2 acc2, hacc]
    simp [pooledScrapedPrices, List.append_assoc]

/-- C2 (amended): in the initial unfiltered aggregation (`buildResult` over
`gatherPricing` results) the aggregate `medianPrice` *is* the median of the
pooled, sorted per-listing prices across entities, provided each supplied
page result has a null `lowest` whenever it has no prices (which holds for
every real `parseFilteredPage` output, whose `lowest` is the minimum of its
prices); in the filtered-stats aggregation (`handleFilteredStats`) the
aggregate `medianPrice` is instead the median of the sorted *per-entity
median* values. -/
theorem C2_amended_median_pooling (pgs : List (Option PageParseResult))
    (scrapes : List FilteredScrape)
    (hlow : ∀ pg ∈ pgs, ∀ x ∈ pg, x.prices = [] → x.lowest = none) :
    (buildResultStats (pgs.map gatherPricingPure)).medianPrice =
      computeMedian (sortQ (pooledScrapedPrices (pgs.map gatherPricingPure))) ∧
    (handleFilteredStatsPure scrapes).medianPrice =
      computeMedian (sortQ (scrapes.filterMap (·.medianPrice))) := by
  constructor
  · have h : ∀ p ∈ pgs.map gatherPricingPure,
        p.scrapedPrices = [] → p.lowestPrice = none ∧ p.medianPrice = none := by
      intro p hp hsp
      rcases List.mem_map.1 hp with ⟨pg?, hmem, rfl⟩
      rcases pg? with _ | pg
      · simp [gatherPricingPure, computeMedian]
      · have hpr : pg.prices = [] := by
          unfold gatherPricingPure at hsp
          dsimp only at hsp
          split_ifs at hsp with hc
          · exact absurd hsp hc
          · exact not_not.mp hc
        refine ⟨?_, ?_⟩
        · simpa [gatherPricingPure, hpr] using hlow (some pg) hmem pg rfl hpr
        · simp [gatherPricingPure, hpr, sortQ, computeMedian]
    unfold buildResultStats
    rcases hB : (pgs.map gatherPricingPure).foldl buildResultStep (0, none, []) with ⟨t, lo, ap⟩
    have := buildResult_allPrices (pgs.map gatherPricingPure) h 0 none []
    rw [hB] at this
    dsimp only at this ⊢
    rw [this]
    simp
  · rfl

/-- C2 (witness): the pooled-median guarantee of `buildResult` at concrete
pages `[10, 30]` and `[20]`: the aggregate median is the median of the
pooled sorted prices. -/
theorem C2_amended_witness :
    (buildResultStats ([some ⟨2, 2, 2, [10, 30], some 10⟩,
        some (⟨1, 1, 1, [20], some 20⟩ : PageParseResult)].map gatherPricingPure)).medianPrice =
      computeMedian (sortQ (pooledScrapedPrices ([some ⟨2, 2, 2, [10, 30], some 10⟩,
        some (⟨1, 1, 1, [20], some 20⟩ : PageParseResult)].map gatherPricingPure))) := by
  exact (C2_amended_median_pooling
    [some ⟨2, 2, 2, [10, 30], some 10⟩, some ⟨1, 1, 1, [20], some 20⟩] []
    (by decide)).1

/-! ## Claim C6 -/

/-- `firstIdxOf` finds the least index at which `sub` occurs. -/
theorem firstIdxOf_spec (sub : List Char) (q : List Char) (n : Nat)
    (h : firstIdxOf sub q = some n) :
    sub.isPrefixOf (q.drop n) = true ∧ ∀ m < n, sub.isPrefixOf (q.drop m) = false := by
  induction q generalizing n with
  | nil =>
    unfold firstIdxOf at h
    split_ifs at h with hs
    injection h with h
    subst h
    subst hs
    exact ⟨rfl, by omega⟩
  | cons c t ih =>
    unfold firstIdxOf at h
    split_ifs at h with hs
    · injection h with h
      subst h
      exact ⟨hs, by omega⟩
    · rcases Option.map_eq_some'.1 h with ⟨n', hn', rfl⟩
      rcases ih n' hn' with ⟨h1, h2⟩
      refine ⟨h1, ?_⟩
      intro m hm
      match m with
      | 0 =>
        simp only [List.drop_zero]
        exact Bool.eq_false_iff.mpr hs
      | m' + 1 => exact h2 m' (by omega)

/-- An occurrence found by `firstIdxOf` decomposes the string. -/
theorem firstIdxOf_decomp (sub : List Char) (q : List Char) (n : Nat)
    (h : firstIdxOf sub q = some n) :
    q = q.take n ++ sub ++ q.drop (n + sub.length) := by
  have h1 := (firstIdxOf_spec sub q n h).1
  rcases (List.isPrefixOf_iff_prefix.1 h1 : sub <+: q.drop n) with ⟨t, ht⟩
  have ht2 : q.drop (n + sub.length) = t := by
    have hd : (q.drop n).drop sub.length = t := by rw [← ht]; simp
    rw [← hd, List.drop_drop]
  calc q = q.take n ++ q.drop n := (List.take_append_drop n q).symm
    _ = q.take n ++ sub ++ q.drop (n + sub.length) := by
        rw [← ht, ht2, List.append_assoc]

/-- The fall-through of the separator loop: when no listed separator has its
first occurrence at a positive index, the query is returned whole. -/
theorem parseArtistTrackGo_none (q : List Char) (seps : List (List Char))
    (h : ∀ sep ∈ seps, goodSep q sep = false) :
    parseArtistTrackGo q seps = ⟨"", ⟨q⟩⟩ := by
  induction seps with
  | nil => rfl
  | cons sep rest ih =>
    have hs := h sep (by simp)
    have ihr := ih (fun s hs' => h s (by simp [hs']))
    unfold parseArtistTrackGo
    unfold goodSep at hs
    rcases hidx : firstIdxOf sep q with _ | n
    · exact ihr
    · rw [hidx] at hs
      dsimp only
      rw [if_neg (by simpa using hs)]
      exact ihr

/-- C6: `parseArtistTrack` tries the separators `" | "`, `" - "`, `" – "`,
`" — "`, `": "` in that fixed priority order; the first (in priority order)
whose first occurrence lies at an index `> 0` splits the query there into
trimmed artist and track — the found index is the least occurrence of that
separator, and the query decomposes around it — even if a lower-priority
separator occurs earlier in the string; when no separator's first occurrence
is at a positive index the result is `{artist: "", track: query}` with the
track the whole input unchanged. -/
theorem C6_parseArtistTrack_separator_priority (q : String) :
    ((∀ sep ∈ SEPS, goodSep q.data sep = false) → parseArtistTrack q = ⟨"", q⟩) ∧
    (∀ sep, SEPS.find? (goodSep q.data) = some sep →
      ∃ n, firstIdxOf sep q.data = some n ∧ 0 < n ∧
        q.data = q.data.take n ++ sep ++ q.data.drop (n + sep.length) ∧
        (∀ m < n, sep.isPrefixOf (q.data.drop m) = false) ∧
        parseArtistTrack q =
          ⟨⟨jsTrim (q.data.take n)⟩, ⟨jsTrim (q.data.drop (n + sep.length))⟩⟩) := by
  constructor
  · intro h
    unfold parseArtistTrack
    rw [parseArtistTrackGo_none q.data SEPS h]
  · unfold parseArtistTrack
    generalize SEPS = seps
    induction seps with
    | nil => intro sep h; cases h
    | cons s rest ih =>
      intro sep h
      rw [List.find?_cons] at h
      rcases hg : goodSep q.data s with _ | _
      · rw [hg] at h
        rcases ih sep h with ⟨n, h1, h2, h3, h4, h5⟩
        refine ⟨n, h1, h2, h3, h4, ?_⟩
        unfold parseArtistTrackGo
        unfold goodSep at hg
        rcases hidx : firstIdxOf s q.data with _ | k
        · exact h5
        · rw [hidx] at hg
          dsimp only
          rw [if_neg (by simpa using hg)]
          exact h5
      · rw [hg] at h
        injection h with h
        subst h
        unfold goodSep at hg
        unfold parseArtistTrackGo
        rcases hidx : firstIdxOf s q.data with _ | n
        · rw [hidx] at hg
          simp at hg
        · rw [hidx] at hg
          have hn : 0 < n := by simpa using hg
          refine ⟨n, rfl, hn, firstIdxOf_decomp s q.data n hidx,
            (firstIdxOf_spec s q.data n hidx).2, ?_⟩
          dsimp only
          rw [if_pos hn]

/-- C6 (witness): on `"A | B - C"` the pipe (priority 1) wins over the dash
even though the dash also occurs; on `" - Track Only"` the leading dash at
index 0 does not split. -/
theorem C6_witness :
    parseArtistTrack "A | B - C" = ⟨"A", "B - C"⟩ ∧
    parseArtistTrack " - Track Only" = ⟨"", " - Track Only"⟩ := by
  constructor
  · obtain ⟨n, h1, h2, h3, h4, h5⟩ :=
      (C6_parseArtistTrack_separator_priority "A | B - C").2 " | ".data (by decide)
    have hn : firstIdxOf " | ".data "A | B - C".data = some 1 := by decide
    rw [hn] at h1
    injection h1 with h1
    subst h1
    rw [h5]
    decide
  · exact (C6_parseArtistTrack_separator_priority " - Track Only").1 (by decide)

/-! ## Claim C5 -/

/-- `wordsContain` is whole-word-set containment. -/
theorem wordsContain_iff (hay needle : String) :
    wordsContain hay needle = true ↔ wordSetContain hay needle := by
  unfold wordsContain wordSetContain
  rw [List.all_eq_true]
  constructor
  · intro h w hw
    have := h w hw
    simpa [List.contains] using this
  · intro h w hw
    simpa [List.contains] using h w hw

/-- One entry of the short-needle branch. -/
theorem entryMatches_short_iff (needle needleFuzzy : String) (t : TracklistEntry) :
    entryMatches needle needleFuzzy true t = true ↔
      entryConsidered t = true ∧ normalize t.title ≠ "" ∧ normalize t.title = needle := by
  unfold entryMatches
  rcases hc : entryConsidered t with _ | _
  · simp [hc]
  · rcases he : decide (normalize t.title = "") with _ | _
    · simp_all
    · simp_all

/-- One entry of the long-needle branch. -/
theorem entryMatches_long_iff (needle needleFuzzy : String) (t : TracklistEntry) :
    entryMatches needle needleFuzzy false t = true ↔
      entryConsidered t = true ∧ normalize t.title ≠ "" ∧
        (wordSetContain (normalize t.title) needle ∨
         wordSetContain needle (normalize t.title) ∨
         wordSetContain (fuzzyNorm t.title) needleFuzzy ∨
         wordSetContain needleFuzzy (fuzzyNorm t.title)) := by
  unfold entryMatches
  rcases hc : entryConsidered t with _ | _
  · simp [hc]
  · rcases he : decide (normalize t.title = "") with _ | _
    · simp_all [← wordsContain_iff, or_assoc]
    · simp_all

/-- C5: the matching rules of `tracklistContains`: a normalized needle
shorter than 2 characters never matches; a 2-3 character needle matches iff
some considered entry's non-empty normalized title equals it exactly; a
needle of 4 or more characters matches iff some considered entry's
non-empty normalized title satisfies whole-word-set containment in either
direction, on `normalize` output or on `fuzzyNorm` output. -/
theorem C5_tracklistContains_rules (tl : List TracklistEntry) (name : Option String) :
    ((normalize name).length < 2 → tracklistContains tl name = false) ∧
    (2 ≤ (normalize name).length → (normalize name).length ≤ 3 →
      (tracklistContains tl name = true ↔
        ∃ t ∈ tl, entryConsidered t = true ∧ normalize t.title ≠ "" ∧
          normalize t.title = normalize name)) ∧
    (4 ≤ (normalize name).length →
      (tracklistContains tl name = true ↔
        ∃ t ∈ tl, entryConsidered t = true ∧ normalize t.title ≠ "" ∧
          (wordSetContain (normalize t.title) (normalize name) ∨
           wordSetContain (normalize name) (normalize t.title) ∨
           wordSetContain (fuzzyNorm t.title) (fuzzyNorm name) ∨
           wordSetContain (fuzzyNorm name) (fuzzyNorm t.title)))) := by
  refine ⟨?_, ?_, ?_⟩
  · intro hlen
    unfold tracklistContains
    dsimp only
    split_ifs with h1 h2
    · rfl
    · rfl
    · exfalso
      apply h2
      simp only [Bool.or_eq_true, decide_eq_true_eq]
      right
      exact hlen
  · intro hge hle
    unfold tracklistContains
    dsimp only
    split_ifs with h1 h2
    · simp only [Bool.false_eq_true, false_iff]
      simp only [Bool.or_eq_true, decide_eq_true_eq] at h1
      rcases h1 with (he | hn) | hs
      · rintro ⟨t, ht, _⟩
        rw [List.isEmpty_iff.1 he] at ht
        cases ht
      · subst hn
        rintro ⟨t, _, _, hne, heq⟩
        rw [heq] at hne
        exact hne (by decide)
      · subst hs
        rintro ⟨t, _, _, hne, heq⟩
        rw [heq] at hne
        exact hne (by decide)
    · exfalso
      simp only [Bool.or_eq_true, decide_eq_true_eq] at h2
      rcases h2 with he | hn
      · rw [he] at hge
        exact absurd hge (by decide)
      · omega
    · rw [show decide ((normalize name).length ≤ 3) = true by simp [hle]]
      rw [List.any_eq_true]
      constructor
      · rintro ⟨t, ht, hm⟩
        exact ⟨t, ht, (entryMatches_short_iff _ _ t).1 hm⟩
      · rintro ⟨t, ht, hm⟩
        exact ⟨t, ht, (entryMatches_short_iff _ _ t).2 hm⟩
  · intro hge
    unfold tracklistContains
    dsimp only
    split_ifs with h1 h2
    · simp only [Bool.false_eq_true, false_iff]
      simp only [Bool.or_eq_true, decide_eq_true_eq] at h1
      rcases h1 with (he | hn) | hs
      · rintro ⟨t, ht, _⟩
        rw [List.isEmpty_iff.1 he] at ht
        cases ht
      · subst hn
        exact absurd hge (by decide)
      · subst hs
        exact absurd hge (by decide)
    · exfalso
      simp only [Bool.or_eq_true, decide_eq_true_eq] at h2
      rcases h2 with he | hn
      · rw [he] at hge
        exact absurd hge (by decide)
      · omega
    · rw [show decide ((normalize name).length ≤ 3) = false by
        simp only [decide_eq_false_iff_not]; omega]
      rw [List.any_eq_true]
      constructor
      · rintro ⟨t, ht, hm⟩
        exact ⟨t, ht, (entryMatches_long_iff _ _ t).1 hm⟩
      · rintro ⟨t, ht, hm⟩
        exact ⟨t, ht, (entryMatches_long_iff _ _ t).2 hm⟩

/-- C5 (witness): a 2-character title matches exactly ("Ok" / "OK"), a
4+-character needle matches through word-set containment
("Blue Monday" in "Blue Monday Remix"), and a 1-character needle never
matches. -/
theorem C5_witness :
    tracklistContains [⟨some "Ok", none⟩] (some "OK") = true ∧
    tracklistContains [⟨some "Blue Monday Remix", none⟩] (some "Blue Monday") = true ∧
    tracklistContains [⟨some "Longer Track Name", none⟩] (some "L") = false := by
  refine ⟨?_, ?_, ?_⟩
  · exact ((C5_tracklistContains_rules [⟨some "Ok", none⟩] (some "OK")).2.1
      (by decide) (by decide)).2 ⟨⟨some "Ok", none⟩, by decide, by decide, by decide, by decide⟩
  · exact ((C5_tracklistContains_rules [⟨some "Blue Monday Remix", none⟩]
      (some "Blue Monday")).2.2 (by decide)).2
      ⟨⟨some "Blue Monday Remix", none⟩, by decide, by decide, by decide,
        Or.inl (by decide)⟩
  · exact (C5_tracklistContains_rules [⟨some "Longer Track Name", none⟩] (some "L")).1
      (by decide)

/-! ## Claim C7 -/

/-- The exec-loop of the price extraction takes exactly the first match that
is a valid amount (not `+`-prefixed, not an `about $` annotation, not
preceded by "shipping", parsing to a positive value). -/
theorem firstPriceLoop_eq_findSome (pms : List PriceMatch) :
    firstPriceLoop pms = pms.findSome? acceptedPrice := by
  induction pms with
  | nil => rfl
  | cons pm rest ih =>
    rw [List.findSome?_cons]
    rcases hp : pm.plus with _ | _
    · rcases ha : pm.about with _ | _
      · rcases hs : pm.shipBefore with _ | _
        · rcases hv : parseJsFloat (pm.numStr.filter (fun x => !decide (x = ','))) with _ | val
          · have hA : acceptedPrice pm = none := by simp [acceptedPrice, hp, ha, hs, hv]
            rw [hA]
            unfold firstPriceLoop
            simp [hp, ha, hs, hv, ih]
          · by_cases h0 : 0 < val
            · have hA : acceptedPrice pm = some val := by
                simp [acceptedPrice, hp, ha, hs, hv, h0]
              rw [hA]
              unfold firstPriceLoop
              simp [hp, ha, hs, hv, h0]
            · have hA : acceptedPrice pm = none := by
                simp [acceptedPrice, hp, ha, hs, hv, h0]
              rw [hA]
              unfold firstPriceLoop
              simp [hp, ha, hs, hv, h0, ih]
        · have hA : acceptedPrice pm = none := by simp [acceptedPrice, hs]
          rw [hA]
          unfold firstPriceLoop
          simp [hp, ha, hs, ih]
      · have hA : acceptedPrice pm = none := by simp [acceptedPrice, ha]
        rw [hA]
        unfold firstPriceLoop
        simp [hp, ha, ih]
    · have hA : acceptedPrice pm = none := by simp [acceptedPrice, hp]
      rw [hA]
      unfold firstPriceLoop
      simp [hp, ih]

/-- The prices component of one loop iteration. -/
theorem parseBlocksStep_prices (u v : Bool) (st : Nat × Nat × List ℚ × Option ℚ)
    (b : List Char) :
    (parseBlocksStep u v st b).2.2.1 =
      st.2.2.1 ++ (if blockPassesFilters u v b then (extractBlockPrice b).toList else []) := by
  rcases st with ⟨o, m, ps, lo⟩
  unfold parseBlocksStep blockPassesFilters
  dsimp only
  rcases hd : hasDollarAmount b with _ | _
  · simp [hd]
  · rcases hg : findCondGrade b with _ | grade
    · simp [hg]
    · rcases hsf : hasShipsFrom b with _ | _
      · simp [hg, hsf]
      · rcases v with _ | _
        · rcases u with _ | _
          · rcases hx : extractBlockPrice b with _ | val <;>
              simp [hg, hsf, hx, Option.toList]
          · rcases hus : usCountryOk b with _ | _
            · simp [hg, hsf, hus]
            · rcases hx : extractBlockPrice b with _ | val <;>
                simp [hg, hsf, hus, hx, Option.toList]
        · rcases hvg : isVGPlusOrBetter grade with _ | _
          · simp [hg, hsf, hvg]
          · rcases u with _ | _
            · rcases hx : extractBlockPrice b with _ | val <;>
                simp [hg, hsf, hvg, hx, Option.toList]
            · rcases hus : usCountryOk b with _ | _
              · simp [hg, hsf, hvg, hus]
              · rcases hx : extractBlockPrice b with _ | val <;>
                  simp [hg, hsf, hvg, hus, hx, Option.toList]

/-- The prices list of the whole loop: one extracted price per
filter-passing validated block, in order. -/
theorem parseBlocks_prices (u v : Bool) (bs : List (List Char)) :
    ∀ st : Nat × Nat × List ℚ × Option ℚ,
      (bs.foldl (parseBlocksStep u v) st).2.2.1 =
        st.2.2.1 ++ (bs.filter (blockPassesFilters u v)).filterMap extractBlockPrice := by
  induction bs with
  | nil => intro st; simp
  | cons b bs ih =>
    intro st
    simp only [List.foldl_cons]
    rw [ih (parseBlocksStep u v st b)]
    rw [parseBlocksStep_prices u v st b]
    rcases hb : blockPassesFilters u v b with _ | _
    · simp [List.filter_cons, hb]
    · rcases hx : extractBlockPrice b with _ | val <;>
        simp [List.filter_cons, hb, hx, Option.toList]

/-- C7: within each validated, filter-passing listing block the extracted
listing price is the first financial amount that is not `+`-prefixed, not
part of an `about $X` conversion annotation, not immediately preceded by
the word "shipping" (20-character look-back), and parses to a positive
value; `parseFilteredPage`'s price list is exactly one such price per
filter-passing block; and a "no results" page with a stray dollar amount
yields `total = 0` and no prices. -/
theorem C7_price_extraction_rule :
    (∀ block : List Char,
      extractBlockPrice block = firstValidAmount block) ∧
    (∀ (html : String) (u v : Bool),
      (parseFilteredPage html u v).prices =
        ((splitMediaCond html.data).tail.filter (blockPassesFilters u v)).filterMap
          extractBlockPrice) ∧
    parseFilteredPage "No items for sale. Related: $1.01 specials" false false =
      ⟨0, 0, 0, [], none⟩ := by
  refine ⟨?_, ?_, by decide⟩
  · intro block
    unfold extractBlockPrice firstValidAmount
    exact firstPriceLoop_eq_findSome (priceMatches block)
  · intro html u v
    rw [parseFilteredPage_eq]
    have hfix : ∀ t hp o m ps lo, (pageFixup t hp o m ps lo).prices = ps := by
      intro t hp o m ps lo
      simp [pageFixup]
    rw [hfix]
    unfold parseBlocks
    rw [parseBlocks_prices u v (splitMediaCond html.data).tail (0, 0, [], none)]
    rfl

/-! ## Normalizer shape lemmas (towards C9 and C10) -/

/-- Characters of the collapse output: the inserted single spaces, or
non-whitespace input characters. -/
theorem mem_collapseWsAux (b : Bool) (l : List Char) (c : Char)
    (h : c ∈ collapseWsAux b l) : c = ' ' ∨ (c ∈ l ∧ jsWs c = false) := by
  induction l generalizing b with
  | nil => cases h
  | cons d t ih =>
    unfold collapseWsAux at h
    by_cases hw : jsWs d = true
    · rw [if_pos hw] at h
      rcases b with _ | _
      · rw [if_neg (by simp)] at h
        rcases List.mem_cons.1 h with rfl | h'
        · exact Or.inl rfl
        · rcases ih true h' with h1 | ⟨h2, h3⟩
          · exact Or.inl h1
          · exact Or.inr ⟨by simp [h2], h3⟩
      · rw [if_pos rfl] at h
        rcases ih true h with h1 | ⟨h2, h3⟩
        · exact Or.inl h1
        · exact Or.inr ⟨by simp [h2], h3⟩
    · rw [if_neg hw] at h
      rcases List.mem_cons.1 h with rfl | h'
      · exact Or.inr ⟨by simp, Bool.eq_false_iff.mpr hw⟩
      · rcases ih false h' with h1 | ⟨h2, h3⟩
        · exact Or.inl h1
        · exact Or.inr ⟨by simp [h2], h3⟩

/-- In the whitespace-absorbing state the collapse output never starts with
whitespace. -/
theorem collapseWsAux_true_head (l : List Char) (c : Char)
    (h : (collapseWsAux true l).head? = some c) : jsWs c = false := by
  induction l with
  | nil => cases h
  | cons d t ih =>
    unfold collapseWsAux at h
    by_cases hw : jsWs d = true
    · rw [if_pos hw, if_pos rfl] at h
      exact ih h
    · rw [if_neg hw, List.head?_cons] at h
      injection h with h
      subst h
      exact Bool.eq_false_iff.mpr hw

/-- The collapse output never has two adjacent whitespace characters. -/
theorem chain'_collapseWsAux (b : Bool) (l : List Char) :
    List.Chain' (fun a c => ¬(jsWs a = true ∧ jsWs c = true)) (collapseWsAux b l) := by
  induction l generalizing b with
  | nil => simp [collapseWsAux]
  | cons d t ih =>
    unfold collapseWsAux
    by_cases hw : jsWs d = true
    · rw [if_pos hw]
      rcases b with _ | _
      · rw [if_neg (by simp)]
        rw [List.chain'_cons']
        refine ⟨?_, ih true⟩
        intro y hy
        intro ⟨_, hy2⟩
        exact absurd hy2 (by simp [collapseWsAux_true_head t y hy])
      · rw [if_pos rfl]
        exact ih true
    · rw [if_neg hw]
      rw [List.chain'_cons']
      refine ⟨?_, ih false⟩
      intro y hy
      intro ⟨h1, _⟩
      exact absurd h1 hw

/-- The head surviving `dropWhile` fails the predicate. -/
theorem head_dropWhile_false {p : Char → Bool} (l : List Char) (c : Char)
    (h : (l.dropWhile p).head? = some c) : p c = false := by
  induction l with
  | nil => cases h
  | cons d t ih =>
    rw [List.dropWhile_cons] at h
    split_ifs at h with hp
    · exact ih h
    · rw [List.head?_cons] at h
      injection h with h
      subst h
      simpa using hp

/-- A non-empty prefix shares its head. -/
theorem head_of_isPre {l₁ l₂ : List Char} (h : l₁ <+: l₂) (c : Char)
    (hc : l₁.head? = some c) : l₂.head? = some c := by
  rcases h with ⟨t, rfl⟩
  rcases l₁ with _ | ⟨d, t'⟩
  · cases hc
  · simpa using hc

/-- `jsTrim` is an infix of its input. -/
theorem jsTrim_isInf (l : List Char) : jsTrim l <:+: l := by
  unfold jsTrim
  have h1 : (l.dropWhile jsWs) <:+ l := l.dropWhile_suffix jsWs
  have h2 : ((l.dropWhile jsWs).reverse.dropWhile jsWs).reverse <+: (l.dropWhile jsWs) := by
    rw [← List.reverse_suffix]
    simpa using (l.dropWhile jsWs).reverse.dropWhile_suffix jsWs
  exact h2.isInfix.trans h1.isInfix

/-- The head of the trimmed string is not whitespace. -/
theorem jsTrim_head (l : List Char) (c : Char) (h : (jsTrim l).head? = some c) :
    jsWs c = false := by
  unfold jsTrim at h
  have hpre : ((l.dropWhile jsWs).reverse.dropWhile jsWs).reverse <+: (l.dropWhile jsWs) := by
    rw [← List.reverse_suffix]
    simpa using (l.dropWhile jsWs).reverse.dropWhile_suffix jsWs
  exact head_dropWhile_false l c (head_of_isPre hpre c h)

/-- The last character of the trimmed string is not whitespace. -/
theorem jsTrim_getLast (l : List Char) (c : Char) (h : (jsTrim l).getLast? = some c) :
    jsWs c = false := by
  unfold jsTrim at h
  rw [List.getLast?_reverse] at h
  exact head_dropWhile_false _ c h

/-! ## Character-class lemmas -/

theorem lowerAlnum_not_upper (c : Char) (h : isLowerAlnum c = true) :
    ¬('A' ≤ c ∧ c ≤ 'Z') := by
  unfold isLowerAlnum isLowerAlpha isDigit at h
  simp only [Bool.or_eq_true, Bool.and_eq_true, decide_eq_true_eq, Char.le_def,
    UInt32.le_def, BitVec.le_def] at h ⊢
  have e1 : ('a' : Char).val.toBitVec.toNat = 97 := by decide
  have e2 : ('z' : Char).val.toBitVec.toNat = 122 := by decide
  have e3 : ('0' : Char).val.toBitVec.toNat = 48 := by decide
  have e4 : ('9' : Char).val.toBitVec.toNat = 57 := by decide
  have e5 : ('A' : Char).val.toBitVec.toNat = 65 := by decide
  have e6 : ('Z' : Char).val.toBitVec.toNat = 90 := by decide
  omega

theorem jsToLower_fix (c : Char) (h : isLowerAlnum c = true ∨ c = ' ') :
    jsToLower c = c := by
  rcases h with h | rfl
  · unfold jsToLower
    rw [if_neg (lowerAlnum_not_upper c h)]
  · decide

theorem lowerAlnum_not_ws (c : Char) (h : isLowerAlnum c = true) : jsWs c = false := by
  apply Bool.eq_false_iff.mpr
  intro habs
  unfold jsWs at habs
  unfold isLowerAlnum isLowerAlpha isDigit at h
  simp only [Bool.or_eq_true, Bool.and_eq_true, decide_eq_true_eq, or_assoc] at habs h
  rcases habs with hc | hc | hc | hc | hc | hc | hc | hc | hr | hc | hc | hc | hc | hc | hc
  all_goals first
  | (subst hc; exact absurd h (by decide))
  | (obtain ⟨hr1, hr2⟩ := hr
     simp only [Char.le_def, UInt32.le_def, BitVec.le_def] at h hr1 hr2
     have e1 : ('a' : Char).val.toBitVec.toNat = 97 := by decide
     have e2 : ('z' : Char).val.toBitVec.toNat = 122 := by decide
     have e3 : ('0' : Char).val.toBitVec.toNat = 48 := by decide
     have e4 : ('9' : Char).val.toBitVec.toNat = 57 := by decide
     have e5 : ('\u2000' : Char).val.toBitVec.toNat = 8192 := by decide
     have e6 : ('\u200A' : Char).val.toBitVec.toNat = 8202 := by decide
     omega)

theorem lowerAlnum_ne_space (c : Char) (h : isLowerAlnum c = true) : c ≠ ' ' := by
  intro heq
  rw [heq] at h
  exact absurd h (by decide)

/-! ## `normalize` fixes canonical strings -/

theorem map_toLower_fix (l : List Char)
    (h : ∀ c ∈ l, isLowerAlnum c = true ∨ c = ' ') : l.map jsToLower = l := by
  induction l with
  | nil => rfl
  | cons c t ih =>
    rw [List.map_cons, jsToLower_fix c (h c (by simp)), ih (fun d hd => h d (by simp [hd]))]

theorem filter_alnum_fix (l : List Char)
    (h : ∀ c ∈ l, isLowerAlnum c = true ∨ c = ' ') :
    l.filter (fun c => isLowerAlnum c || jsWs c) = l := by
  rw [List.filter_eq_self]
  intro a ha
  rcases h a ha with h1 | rfl
  · simp [h1]
  · decide

theorem collapseWsAux_fix (l : List Char)
    (hchars : ∀ c ∈ l, isLowerAlnum c = true ∨ c = ' ')
    (hchain : List.Chain' (fun a b => ¬(a = ' ' ∧ b = ' ')) l) :
    collapseWsAux false l = l ∧
    ((∀ c, l.head? = some c → c ≠ ' ') → collapseWsAux true l = l) := by
  induction l with
  | nil => exact ⟨rfl, fun _ => rfl⟩
  | cons d t ih =>
    obtain ⟨ihf, iht⟩ := ih (fun c hc => hchars c (by simp [hc])) hchain.tail
    by_cases hd : d = ' '
    · subst hd
      have hths : ∀ c, t.head? = some c → c ≠ ' ' := by
        intro c hc
        have := (List.chain'_cons'.1 hchain).1 c hc
        intro rfl2
        exact this ⟨rfl, rfl2⟩
      constructor
      · unfold collapseWsAux
        rw [if_pos (by decide), if_neg (by simp)]
        rw [iht hths]
      · intro hp
        exact absurd rfl (hp ' ' (by simp))
    · have halnum : isLowerAlnum d = true := by
        rcases hchars d (by simp) with h1 | h1
        · exact h1
        · exact absurd h1 hd
      have hws : jsWs d = false := lowerAlnum_not_ws d halnum
      constructor
      · unfold collapseWsAux
        rw [if_neg (by simp [hws]), ihf]
      · intro _
        unfold collapseWsAux
        rw [if_neg (by simp [hws]), ihf]

theorem dropWhile_fix {p : Char → Bool} (l : List Char)
    (h : ∀ c, l.head? = some c → p c = false) : l.dropWhile p = l := by
  rcases l with _ | ⟨c, t⟩
  · rfl
  · rw [List.dropWhile_cons, if_neg (by simp [h c rfl])]

theorem jsTrim_fix (l : List Char)
    (hh : ∀ c, l.head? = some c → jsWs c = false)
    (hl : ∀ c, l.getLast? = some c → jsWs c = false) : jsTrim l = l := by
  unfold jsTrim
  rw [dropWhile_fix l hh]
  rw [dropWhile_fix l.reverse (fun c hc => hl c (by rwa [List.head?_reverse] at hc))]
  exact List.reverse_reverse l

/-- `normalize` output is canonical. -/
theorem Canon_normalizeCore (l : List Char) : Canon (normalizeCore l) := by
  unfold normalizeCore
  set f := (l.map jsToLower).filter (fun c => isLowerAlnum c || jsWs c) with hf
  have hfc : ∀ c ∈ f, isLowerAlnum c = true ∨ jsWs c = true := by
    intro c hc
    rw [hf] at hc
    have := List.of_mem_filter hc
    simpa using this
  have hmemc : ∀ c ∈ jsTrim (collapseWs f), isLowerAlnum c = true ∨ c = ' ' := by
    intro c hc
    have hc2 : c ∈ collapseWs f := (jsTrim_isInf (collapseWs f)).sublist.subset hc
    rcases mem_collapseWsAux false f c hc2 with h1 | ⟨h2, h3⟩
    · exact Or.inr h1
    · rcases hfc c h2 with h4 | h4
      · exact Or.inl h4
      · rw [h4] at h3
        cases h3
  refine ⟨hmemc, ?_, ?_, ?_⟩
  · have hch := chain'_collapseWsAux false f
    have hch2 := hch.infix (jsTrim_isInf (collapseWs f))
    exact hch2.imp (fun a b hab ⟨ha, hb⟩ => hab ⟨by rw [ha]; decide, by rw [hb]; decide⟩)
  · intro hsp
    rcases hhead : (jsTrim (collapseWs f)).head? with _ | c
    · rw [hhead] at hsp; cases hsp
    · rw [hhead] at hsp
      injection hsp with hsp
      have := jsTrim_head (collapseWs f) c hhead
      rw [hsp] at this
      exact absurd this (by decide)
  · intro hsp
    rcases hlast : (jsTrim (collapseWs f)).getLast? with _ | c
    · rw [hlast] at hsp; cases hsp
    · rw [hlast] at hsp
      injection hsp with hsp
      have := jsTrim_getLast (collapseWs f) c hlast
      rw [hsp] at this
      exact absurd this (by decide)

/-- `normalize` fixes canonical strings. -/
theorem normalizeCore_fix (l : List Char) (h : Canon l) : normalizeCore l = l := by
  obtain ⟨hchars, hchain, hhead, hlast⟩ := h
  unfold normalizeCore
  rw [map_toLower_fix l hchars, filter_alnum_fix l hchars]
  have hcoll : collapseWs l = l := by
    unfold collapseWs
    exact (collapseWsAux_fix l hchars hchain).1
  rw [hcoll]
  apply jsTrim_fix
  · intro c hc
    apply lowerAlnum_not_ws
    rcases hchars c (List.mem_of_mem_head? hc) with h1 | rfl
    · exact h1
    · exact absurd hc hhead
  · intro c hc
    apply lowerAlnum_not_ws
    rcases hchars c (List.mem_of_mem_getLast? hc) with h1 | rfl
    · exact h1
    · exact absurd hc hlast

/-! ## Claim C9 -/

/-- C9: `normalize` is idempotent, its output contains only lowercase
alphanumerics and single interior spaces (no leading/trailing space, no two
adjacent spaces — every other character, Unicode punctuation and accented
letters included, having been removed by the `[^a-z0-9\s]` class), and
null/undefined/empty input yields `""`. -/
theorem C9_normalize_idempotent (x : Option String) :
    normalize (some (normalize x)) = normalize x ∧
    Canon (normalize x).data ∧
    normalize none = "" ∧ normalize (some "") = "" := by
  refine ⟨?_, ?_, by decide, by decide⟩
  · unfold normalize
    congr 1
    exact normalizeCore_fix _ (Canon_normalizeCore ((x.getD "").data))
  · exact Canon_normalizeCore _

/-! ## Word decomposition of canonical strings -/

theorem GoodWord_chain' (w : List Char) (h : ∀ c ∈ w, isLowerAlnum c = true) :
    List.Chain' (fun a b => ¬(a = ' ' ∧ b = ' ')) w := by
  induction w with
  | nil => simp
  | cons c t ih =>
    rw [List.chain'_cons']
    refine ⟨?_, ih (fun d hd => h d (by simp [hd]))⟩
    intro y _ ⟨h1, _⟩
    exact lowerAlnum_ne_space c (h c (by simp)) h1

theorem Canon_joinWords (ws : List (List Char)) (h : GoodWords ws) :
    Canon (joinWords ws) := by
  induction ws with
  | nil => exact ⟨by simp [joinWords], by simp [joinWords], by simp [joinWords], by simp [joinWords]⟩
  | cons w vs ih =>
    have hw := h w (by simp)
    have ihv := ih (fun u hu => h u (by simp [hu]))
    rcases vs with _ | ⟨v, vs'⟩
    · refine ⟨?_, ?_, ?_, ?_⟩
      · intro c hc
        exact Or.inl (hw.2 c hc)
      · exact GoodWord_chain' w hw.2
      · intro hsp
        have hsp2 : w.head? = some ' ' := hsp
        exact lowerAlnum_ne_space ' ' (hw.2 ' ' (List.mem_of_mem_head? hsp2)) rfl
      · intro hsp
        have hsp2 : w.getLast? = some ' ' := hsp
        exact lowerAlnum_ne_space ' ' (hw.2 ' ' (List.mem_of_mem_getLast? hsp2)) rfl
    · obtain ⟨ichars, ichain, ihead, ilast⟩ := ihv
      have hjoin : joinWords (w :: v :: vs') = w ++ ' ' :: joinWords (v :: vs') := rfl
      have hvne : joinWords (v :: vs') ≠ [] := by
        have hv := h v (by simp)
        unfold joinWords
        rcases vs' with _ | _
        · exact hv.1
        · simp only []
          intro habs
          exact hv.1 (List.append_eq_nil.1 habs).1
      refine ⟨?_, ?_, ?_, ?_⟩
      · intro c hc
        rw [hjoin] at hc
        rcases List.mem_append.1 hc with h1 | h1
        · exact Or.inl (hw.2 c h1)
        · rcases List.mem_cons.1 h1 with rfl | h2
          · exact Or.inr rfl
          · exact ichars c h2
      · rw [hjoin, List.chain'_append]
        refine ⟨GoodWord_chain' w hw.2, ?_, ?_⟩
        · rw [List.chain'_cons']
          refine ⟨?_, ichain⟩
          intro y hy ⟨_, h2⟩
          exact ihead (by rw [hy, h2])
        · intro x hx y hy ⟨h1, _⟩
          exact lowerAlnum_ne_space x (hw.2 x (List.mem_of_mem_getLast? hx)) h1
      · rw [hjoin]
        intro hsp
        rcases w with _ | ⟨c, t⟩
        · exact hw.1 rfl
        · rw [List.cons_append, List.head?_cons] at hsp
          injection hsp with hsp
          exact lowerAlnum_ne_space c (hw.2 c (by simp)) hsp
      · rw [hjoin]
        intro hsp
        rw [List.getLast?_append_cons] at hsp
        obtain ⟨x, xs, hx⟩ := List.exists_cons_of_ne_nil hvne
        rw [hx, List.getLast?_cons_cons, ← hx] at hsp
        exact ilast hsp

theorem Canon_decomp_aux (n : Nat) :
    ∀ l : List Char, l.length ≤ n → Canon l →
      ∃ ws, GoodWords ws ∧ l = joinWords ws := by
  induction n with
  | zero =>
    intro l hlen _
    rw [Nat.le_zero, List.length_eq_zero] at hlen
    subst hlen
    exact ⟨[], by simp [GoodWords], rfl⟩
  | succ n ih =>
    intro l hlen h
    obtain ⟨hchars, hchain, hhead, hlast⟩ := h
    rcases l with _ | ⟨c, t⟩
    · exact ⟨[], by simp [GoodWords], rfl⟩
    · have hcal : isLowerAlnum c = true := by
        rcases hchars c (by simp) with h1 | rfl
        · exact h1
        · exact (hhead rfl).elim
      set w := c :: t.takeWhile (· ≠ ' ') with hwdef
      set r := t.dropWhile (· ≠ ' ') with hrdef
      have hsplit : c :: t = w ++ r := by
        rw [hwdef, hrdef, List.cons_append, List.takeWhile_append_dropWhile]
      have hwgood : GoodWord w := by
        refine ⟨by simp [hwdef], ?_⟩
        intro d hd
        rw [hwdef] at hd
        rcases List.mem_cons.1 hd with rfl | hd'
        · exact hcal
        · have hdm : d ∈ t := (List.takeWhile_prefix _).sublist.subset hd'
          rcases hchars d (by simp [hdm]) with h1 | rfl
          · exact h1
          · have := List.mem_takeWhile_imp hd'
            simp at this
      rcases hr : r with _ | ⟨d, r'⟩
      · refine ⟨[w], fun u hu => by simpa [List.mem_singleton.1 hu] using hwgood, ?_⟩
        rw [show joinWords [w] = w from rfl]
        rw [hsplit, hr, List.append_nil]
      · have hd : d = ' ' := by
          have hhd : (t.dropWhile (· ≠ ' ')).head? = some d := by
            rw [← hrdef, hr]
            rfl
          have := head_dropWhile_false t d hhd
          simpa using this
        subst hd
        have hrsuffix : (' ' :: r') <:+ (c :: t) := by
          rw [hsplit, hr]
          exact ⟨w, rfl⟩
        have hr'ne : r' ≠ [] := by
          intro habs
          subst habs
          apply hlast
          rw [hsplit, hr, List.getLast?_append_cons]
          rfl
        have hr'canon : Canon r' := by
          refine ⟨?_, ?_, ?_, ?_⟩
          · intro a ha
            exact hchars a (hrsuffix.sublist.subset (by simp [ha]))
          · exact (hchain.suffix hrsuffix).tail
          · intro hsp
            have hch := hchain.suffix hrsuffix
            rw [List.chain'_cons'] at hch
            exact hch.1 ' ' hsp ⟨rfl, rfl⟩
          · intro hsp
            apply hlast
            rw [hsplit, hr, List.getLast?_append_cons]
            obtain ⟨x, xs, hx⟩ := List.exists_cons_of_ne_nil hr'ne
            rw [hx, List.getLast?_cons_cons, ← hx]
            exact hsp
        have hr'len : r'.length ≤ n := by
          have h1 : (' ' :: r').length ≤ (c :: t).length := hrsuffix.length_le
          simp only [List.length_cons] at h1 hlen
          omega
        rcases ih r' hr'len hr'canon with ⟨ws', hws', hjoin'⟩
        have hws'ne : ws' ≠ [] := by
          intro habs
          subst habs
          exact hr'ne (by simpa [joinWords] using hjoin')
        refine ⟨w :: ws', ?_, ?_⟩
        · intro u hu
          rcases List.mem_cons.1 hu with rfl | hu'
          · exact hwgood
          · exact hws' u hu'
        · rcases hws : ws' with _ | ⟨v, vs⟩
          · exact absurd hws hws'ne
          · rw [show joinWords (w :: v :: vs) = w ++ ' ' :: joinWords (v :: vs) from rfl]
            rw [hsplit, hr, ← hws, ← hjoin']

/-- Every canonical string is the single-space join of its (non-empty,
lowercase-alphanumeric) words. -/
theorem Canon_decomp (l : List Char) (h : Canon l) :
    ∃ ws, GoodWords ws ∧ l = joinWords ws :=
  Canon_decomp_aux l.length l le_rfl h

/-! ## The word-boundary scanner on words -/

theorem lowerAlnum_isWord (c : Char) (h : isLowerAlnum c = true) : isJsWordChar c = true := by
  simp only [isLowerAlnum, isLowerAlpha, isJsWordChar, Bool.or_eq_true] at h ⊢
  rcases h with h | h
  · exact Or.inl (Or.inl (Or.inl h))
  · exact Or.inl (Or.inr h)

theorem replaceWordAllGo_skip (pat rep : List Char) :
    ∀ (n : Nat) (prev : Bool) (t : List Char),
      replaceWordAllGo pat rep n prev t = replaceWordAllGo pat rep 0 prev (t.drop n) := by
  intro n
  induction n with
  | zero =>
    intro prev t
    rw [List.drop_zero]
  | succ n ih =>
    intro prev t
    rcases t with _ | ⟨c, t⟩
    · rfl
    · show replaceWordAllGo pat rep n prev t = _
      rw [ih, List.drop_succ_cons]

theorem replaceWordAllGo_cons (pat rep : List Char) (prev : Bool) (c : Char) (t : List Char) :
    replaceWordAllGo pat rep 0 prev (c :: t) =
      if pat ≠ [] ∧ pat.isPrefixOf (c :: t) ∧ boundaryBefore prev pat = true ∧
          boundaryAfter pat ((c :: t).drop pat.length) = true then
        rep ++ replaceWordAllGo pat rep 0 (patLastWord pat) (t.drop (pat.length - 1))
      else
        c :: replaceWordAllGo pat rep 0 (isJsWordChar c) t := by
  rw [show replaceWordAllGo pat rep 0 prev (c :: t) =
      (if pat ≠ [] ∧ pat.isPrefixOf (c :: t) ∧ boundaryBefore prev pat = true ∧
          boundaryAfter pat ((c :: t).drop pat.length) = true then
        rep ++ replaceWordAllGo pat rep (pat.length - 1) (patLastWord pat) t
      else
        c :: replaceWordAllGo pat rep 0 (isJsWordChar c) t) from rfl,
    replaceWordAllGo_skip]

theorem boundaryAfter_eq (pat rest : List Char) (x : Char) (hx : pat.getLast? = some x) :
    boundaryAfter pat rest =
      match rest with
      | [] => isJsWordChar x
      | c :: _ => isJsWordChar x != isJsWordChar c := by
  unfold boundaryAfter
  rw [hx]

theorem patLastWord_eq (pat : List Char) (x : Char) (hx : pat.getLast? = some x) :
    patLastWord pat = isJsWordChar x := by
  unfold patLastWord
  rw [hx]

theorem boundaryAfter_sep (pat tail : List Char) (hpat : pat ≠ [])
    (hpatw : ∀ c ∈ pat, isJsWordChar c = true) (hsep : WordSep tail) :
    boundaryAfter pat tail = true := by
  rw [boundaryAfter_eq pat tail (pat.getLast hpat)
    (List.getLast?_eq_getLast_of_ne_nil hpat)]
  have hlw := hpatw _ (List.getLast_mem hpat)
  rcases hsep with rfl | ⟨t', rfl⟩
  · exact hlw
  · show (isJsWordChar (pat.getLast hpat) != isJsWordChar ' ') = true
    rw [hlw]
    decide

theorem boundaryAfter_cons2 (p q : Char) (pt rest : List Char) :
    boundaryAfter (p :: q :: pt) rest = boundaryAfter (q :: pt) rest := by
  unfold boundaryAfter
  rw [List.getLast?_cons_cons]

theorem scanWord (pat rep : List Char) (hpat : pat ≠ [])
    (hpatw : ∀ c ∈ pat, isJsWordChar c = true) :
    ∀ (u : List Char), (∀ c ∈ u, isJsWordChar c = true) →
      ∀ tail, replaceWordAllGo pat rep 0 true (u ++ tail) =
        u ++ replaceWordAllGo pat rep 0 true tail := by
  rcases pat with _ | ⟨p, pt⟩
  · exact absurd rfl hpat
  intro u
  induction u with
  | nil =>
    intro _ tail
    rfl
  | cons c u ih =>
    intro hu tail
    rw [List.cons_append, replaceWordAllGo_cons, if_neg]
    · have hc : isJsWordChar c = true := hu c (by simp)
      rw [hc, ih (fun d hd => hu d (by simp [hd])) tail, List.cons_append]
    · rintro ⟨-, -, hb, -⟩
      simp only [boundaryBefore] at hb
      rw [hpatw p (by simp)] at hb
      simp at hb

theorem stepSpace (pat rep : List Char) (hpat : pat ≠ [])
    (hpatw : ∀ c ∈ pat, isJsWordChar c = true) (b : Bool) (t : List Char) :
    replaceWordAllGo pat rep 0 b (' ' :: t) =
      ' ' :: replaceWordAllGo pat rep 0 false t := by
  rcases pat with _ | ⟨p, pt⟩
  · exact absurd rfl hpat
  rw [replaceWordAllGo_cons, if_neg]
  · rw [show isJsWordChar ' ' = false from by decide]
  · rintro ⟨-, hpre, -, -⟩
    simp only [List.isPrefixOf, Bool.and_eq_true, beq_iff_eq] at hpre
    have := hpatw p (by simp)
    rw [hpre.1] at this
    exact absurd this (by decide)

theorem prefix_word_eq (pat : List Char) (hpatw : ∀ c ∈ pat, isJsWordChar c = true) :
    ∀ (w tail : List Char), (∀ c ∈ w, isJsWordChar c = true) → WordSep tail →
      pat.isPrefixOf (w ++ tail) = true →
      boundaryAfter pat ((w ++ tail).drop pat.length) = true →
      pat ≠ [] → w ≠ [] → pat = w := by
  induction pat with
  | nil =>
    intro w tail _ _ _ _ hne _
    exact absurd rfl hne
  | cons p pt ih =>
    intro w tail hww hsep hpre hba _ hwne
    rcases w with _ | ⟨c, w'⟩
    · exact absurd rfl hwne
    rw [List.cons_append] at hpre hba
    simp only [List.isPrefixOf, Bool.and_eq_true, beq_iff_eq] at hpre
    obtain ⟨rfl, hpre2⟩ := hpre
    rcases pt with _ | ⟨q, pt'⟩
    · rcases w' with _ | ⟨d, w''⟩
      · rfl
      · exfalso
        have hba2 : (isJsWordChar p != isJsWordChar d) = true := hba
        rw [hpatw p (by simp), hww d (by simp)] at hba2
        simp at hba2
    · have hw'ne : w' ≠ [] := by
        intro habs
        subst habs
        rcases hsep with rfl | ⟨t', rfl⟩
        · simp [List.isPrefixOf] at hpre2
        · simp only [List.nil_append, List.isPrefixOf, Bool.and_eq_true, beq_iff_eq] at hpre2
          have := hpatw q (by simp)
          rw [hpre2.1] at this
          exact absurd this (by decide)
      have hba2 : boundaryAfter (q :: pt') ((w' ++ tail).drop (q :: pt').length) = true := by
        rw [← boundaryAfter_cons2 p q pt']
        rw [show ((p :: q :: pt' : List Char)).length = (q :: pt').length + 1 from rfl,
          List.drop_succ_cons] at hba
        exact hba
      have := ih (fun d hd => hpatw d (by simp [hd])) w' tail
        (fun d hd => hww d (by simp [hd])) hsep hpre2 hba2 (by simp) hw'ne
      rw [this]

theorem patLastWord_true (pat : List Char) (hpat : pat ≠ [])
    (hpatw : ∀ c ∈ pat, isJsWordChar c = true) : patLastWord pat = true := by
  rw [patLastWord_eq pat (pat.getLast hpat) (List.getLast?_eq_getLast_of_ne_nil hpat)]
  exact hpatw _ (List.getLast_mem hpat)

theorem stepPat (pat rep : List Char) (hpat : pat ≠ [])
    (hpatw : ∀ c ∈ pat, isJsWordChar c = true) (tail : List Char) (hsep : WordSep tail) :
    replaceWordAllGo pat rep 0 false (pat ++ tail) =
      rep ++ replaceWordAllGo pat rep 0 true tail := by
  rcases pat with _ | ⟨p, pt⟩
  · exact absurd rfl hpat
  rw [List.cons_append, replaceWordAllGo_cons, if_pos]
  · rw [patLastWord_true (p :: pt) (by simp) hpatw]
    rw [show ((p :: pt : List Char)).length - 1 = pt.length from rfl, List.drop_left]
  · refine ⟨by simp, ?_, ?_, ?_⟩
    · rw [List.isPrefixOf_iff_prefix]
      exact ⟨tail, rfl⟩
    · simp only [boundaryBefore]
      rw [hpatw p (by simp)]
      decide
    · rw [show ((p :: pt : List Char)).length = pt.length + 1 from rfl,
        List.drop_succ_cons, List.drop_left]
      exact boundaryAfter_sep (p :: pt) tail (by simp) hpatw hsep

theorem stepWord (pat rep : List Char) (hpat : pat ≠ [])
    (hpatw : ∀ c ∈ pat, isJsWordChar c = true) (w tail : List Char) (hw : w ≠ [])
    (hww : ∀ c ∈ w, isJsWordChar c = true) (hsep : WordSep tail) (hne : w ≠ pat) :
    replaceWordAllGo pat rep 0 false (w ++ tail) =
      w ++ replaceWordAllGo pat rep 0 true tail := by
  rcases w with _ | ⟨c, w'⟩
  · exact absurd rfl hw
  rw [List.cons_append, replaceWordAllGo_cons, if_neg]
  · have hc : isJsWordChar c = true := hww c (by simp)
    rw [hc, scanWord pat rep hpat hpatw w' (fun d hd => hww d (by simp [hd])) tail,
      List.cons_append]
  · rintro ⟨-, hpre, -, hba⟩
    exact hne (prefix_word_eq pat hpatw (c :: w') tail hww hsep hpre hba hpat (by simp)).symm

/-! ## Bridge: one `\b`-substitution pass acts wordwise -/

theorem replaceWordAllGo_joinWords (pat rep : List Char) (hpat : pat ≠ [])
    (hpatw : ∀ c ∈ pat, isJsWordChar c = true) :
    ∀ ws : List (List Char), GoodWords ws →
      replaceWordAllGo pat rep 0 false (joinWords ws) =
        joinWords (ws.map (substWord pat rep)) := by
  intro ws
  induction ws with
  | nil =>
    intro _
    rfl
  | cons w vs ih =>
    intro h
    have hw := h w (by simp)
    have hwword : ∀ c ∈ w, isJsWordChar c = true :=
      fun c hc => lowerAlnum_isWord c (hw.2 c hc)
    rcases vs with _ | ⟨v, vs'⟩
    · by_cases heq : w = pat
      · rw [show joinWords [w] = w ++ [] from (List.append_nil w).symm, heq,
          stepPat pat rep hpat hpatw [] (Or.inl rfl)]
        rw [show replaceWordAllGo pat rep 0 true [] = [] from rfl, List.append_nil]
        simp [substWord, heq, joinWords]
      · rw [show joinWords [w] = w ++ [] from (List.append_nil w).symm,
          stepWord pat rep hpat hpatw w [] hw.1 hwword (Or.inl rfl) heq]
        rw [show replaceWordAllGo pat rep 0 true [] = [] from rfl, List.append_nil]
        simp [substWord, heq, joinWords]
    · have ihv := ih (fun u hu => h u (by simp [hu]))
      have hsep : WordSep (' ' :: joinWords (v :: vs')) := Or.inr ⟨_, rfl⟩
      rw [show joinWords (w :: v :: vs') = w ++ ' ' :: joinWords (v :: vs') from rfl]
      rw [show joinWords ((w :: v :: vs').map (substWord pat rep)) =
        substWord pat rep w ++ ' ' :: joinWords ((v :: vs').map (substWord pat rep)) from rfl]
      by_cases heq : w = pat
      · rw [heq, stepPat pat rep hpat hpatw _ hsep, stepSpace pat rep hpat hpatw, ihv]
        simp [substWord]
      · rw [stepWord pat rep hpat hpatw w _ hw.1 hwword hsep heq,
          stepSpace pat rep hpat hpatw, ihv]
        simp [substWord, heq]

/-! ## Bridge: the two-word pattern `mid night` acts on adjacent word pairs -/

theorem getLast?_cons_of_ne (a : Char) (l : List Char) (h : l ≠ []) :
    (a :: l).getLast? = l.getLast? := by
  obtain ⟨x, xs, hx⟩ := List.exists_cons_of_ne_nil h
  rw [hx, List.getLast?_cons_cons]

theorem drop_append_len (l₁ l₂ : List Char) (n : Nat) :
    (l₁ ++ l₂).drop (l₁.length + n) = l₂.drop n := by
  induction l₁ with
  | nil => simp
  | cons c t ih =>
    rw [List.cons_append,
      show (c :: t : List Char).length + n = (t.length + n) + 1 from by
        simp [Nat.add_right_comm],
      List.drop_succ_cons, ih]

theorem boundaryAfter_pat2 (w1 w2 : List Char) (h2 : w2 ≠ []) (rest : List Char) :
    boundaryAfter (w1 ++ ' ' :: w2) rest = boundaryAfter w2 rest := by
  unfold boundaryAfter
  rw [List.getLast?_append_cons, getLast?_cons_of_ne ' ' w2 h2]

theorem scanWord2 (pat rep : List Char) (p : Char) (pt : List Char) (hp : pat = p :: pt)
    (hpw : isJsWordChar p = true) :
    ∀ (u : List Char), (∀ c ∈ u, isJsWordChar c = true) →
      ∀ tail, replaceWordAllGo pat rep 0 true (u ++ tail) =
        u ++ replaceWordAllGo pat rep 0 true tail := by
  subst hp
  intro u
  induction u with
  | nil =>
    intro _ tail
    rfl
  | cons c u ih =>
    intro hu tail
    rw [List.cons_append, replaceWordAllGo_cons, if_neg]
    · have hc : isJsWordChar c = true := hu c (by simp)
      rw [hc, ih (fun d hd => hu d (by simp [hd])) tail, List.cons_append]
    · rintro ⟨-, -, hb, -⟩
      simp only [boundaryBefore] at hb
      rw [hpw] at hb
      simp at hb

theorem stepSpace2 (pat rep : List Char) (p : Char) (pt : List Char) (hp : pat = p :: pt)
    (hpw : isJsWordChar p = true) (b : Bool) (t : List Char) :
    replaceWordAllGo pat rep 0 b (' ' :: t) =
      ' ' :: replaceWordAllGo pat rep 0 false t := by
  subst hp
  rw [replaceWordAllGo_cons, if_neg]
  · rw [show isJsWordChar ' ' = false from by decide]
  · rintro ⟨-, hpre, -, -⟩
    simp only [List.isPrefixOf, Bool.and_eq_true, beq_iff_eq] at hpre
    rw [hpre.1] at hpw
    exact absurd hpw (by decide)

theorem stepWordNoFire (pat rep : List Char) (p : Char) (pt : List Char) (hp : pat = p :: pt)
    (hpw : isJsWordChar p = true) (w tail : List Char) (hw : w ≠ [])
    (hww : ∀ c ∈ w, isJsWordChar c = true)
    (hnof : ¬(pat.isPrefixOf (w ++ tail) = true ∧
        boundaryAfter pat ((w ++ tail).drop pat.length) = true)) :
    replaceWordAllGo pat rep 0 false (w ++ tail) =
      w ++ replaceWordAllGo pat rep 0 true tail := by
  rcases w with _ | ⟨c, w'⟩
  · exact absurd rfl hw
  rw [List.cons_append, replaceWordAllGo_cons, if_neg]
  · have hc : isJsWordChar c = true := hww c (by simp)
    rw [hc, scanWord2 pat rep p pt hp hpw w' (fun d hd => hww d (by simp [hd])) tail,
      List.cons_append]
  · rintro ⟨-, hpre, -, hba⟩
    exact hnof ⟨hpre, hba⟩

theorem stepPat2 (w1 w2 rep : List Char) (h1 : w1 ≠ [])
    (h1w : ∀ c ∈ w1, isJsWordChar c = true) (h2 : w2 ≠ [])
    (h2w : ∀ c ∈ w2, isJsWordChar c = true) (tail : List Char) (hsep : WordSep tail) :
    replaceWordAllGo (w1 ++ ' ' :: w2) rep 0 false ((w1 ++ ' ' :: w2) ++ tail) =
      rep ++ replaceWordAllGo (w1 ++ ' ' :: w2) rep 0 true tail := by
  obtain ⟨p, w1', rfl⟩ := List.exists_cons_of_ne_nil h1
  have hlast : ((p :: w1') ++ ' ' :: w2).getLast? = some (w2.getLast h2) := by
    rw [List.getLast?_append_cons, getLast?_cons_of_ne ' ' w2 h2,
      List.getLast?_eq_getLast_of_ne_nil h2]
  rw [show ((p :: w1') ++ ' ' :: w2) ++ tail
      = p :: ((w1' ++ ' ' :: w2) ++ tail) from rfl]
  rw [replaceWordAllGo_cons, if_pos]
  · rw [patLastWord_eq _ (w2.getLast h2) hlast, h2w _ (List.getLast_mem h2)]
    rw [show ((w1' ++ ' ' :: w2) ++ tail).drop (((p :: w1') ++ ' ' :: w2).length - 1)
        = tail from by
      rw [show ((p :: w1') ++ ' ' :: w2).length - 1 = (w1' ++ ' ' :: w2).length from by
        simp]
      rw [List.drop_left]]
  · refine ⟨by simp, ?_, ?_, ?_⟩
    · rw [List.isPrefixOf_iff_prefix]
      exact ⟨tail, rfl⟩
    · show (false != isJsWordChar p) = true
      rw [h1w p (by simp)]
      decide
    · rw [show (p :: ((w1' ++ ' ' :: w2) ++ tail)).drop ((p :: w1') ++ ' ' :: w2).length
          = tail from by
        rw [show ((p :: w1') ++ ' ' :: w2).length = (w1' ++ ' ' :: w2).length + 1 from by
          simp]
        rw [List.drop_succ_cons, List.drop_left]]
      rw [boundaryAfter_eq _ tail (w2.getLast h2) hlast]
      rcases hsep with rfl | ⟨t', rfl⟩
      · exact h2w _ (List.getLast_mem h2)
      · show (isJsWordChar (w2.getLast h2) != isJsWordChar ' ') = true
        rw [h2w _ (List.getLast_mem h2)]
        decide

theorem prefix_two_align (w1 w2 : List Char) (hw1 : ∀ c ∈ w1, isJsWordChar c = true) :
    ∀ (a tail : List Char), (∀ c ∈ a, isJsWordChar c = true) → WordSep tail →
      (w1 ++ ' ' :: w2).isPrefixOf (a ++ tail) = true →
      a = w1 ∧ ∃ t', tail = ' ' :: t' ∧ w2.isPrefixOf t' = true := by
  induction w1 with
  | nil =>
    intro a tail ha hsep hpre
    rcases a with _ | ⟨c, a'⟩
    · rcases hsep with rfl | ⟨t', rfl⟩
      · simp [List.isPrefixOf] at hpre
      · refine ⟨rfl, t', rfl, ?_⟩
        simp only [List.nil_append, List.isPrefixOf, Bool.and_eq_true, beq_iff_eq] at hpre
        exact hpre.2
    · exfalso
      rw [List.cons_append] at hpre
      simp only [List.nil_append, List.isPrefixOf, Bool.and_eq_true, beq_iff_eq] at hpre
      have := ha c (by simp)
      rw [← hpre.1] at this
      exact absurd this (by decide)
  | cons p w1' ih =>
    intro a tail ha hsep hpre
    rcases a with _ | ⟨c, a'⟩
    · exfalso
      rcases hsep with rfl | ⟨t', rfl⟩
      · simp [List.isPrefixOf] at hpre
      · rw [List.nil_append, List.cons_append] at hpre
        simp only [List.isPrefixOf, Bool.and_eq_true, beq_iff_eq] at hpre
        have := hw1 p (by simp)
        rw [hpre.1] at this
        exact absurd this (by decide)
    · rw [List.cons_append, List.cons_append] at hpre
      simp only [List.isPrefixOf, Bool.and_eq_true, beq_iff_eq] at hpre
      obtain ⟨rfl, hpre2⟩ := hpre
      obtain ⟨ha', ht', htl, hw2⟩ := ih (fun d hd => hw1 d (by simp [hd])) a' tail
        (fun d hd => ha d (by simp [hd])) hsep hpre2
      exact ⟨by rw [ha'], ht', htl, hw2⟩

theorem fire_cond_two (w1 w2 : List Char) (h1w : ∀ c ∈ w1, isJsWordChar c = true)
    (h2 : w2 ≠ []) (h2w : ∀ c ∈ w2, isJsWordChar c = true)
    (a : List Char) (haw : ∀ c ∈ a, isJsWordChar c = true)
    (b : List Char) (hbw : ∀ c ∈ b, isJsWordChar c = true) (hbne : b ≠ [])
    (tail3 : List Char) (hsep3 : WordSep tail3)
    (hpre : (w1 ++ ' ' :: w2).isPrefixOf (a ++ ' ' :: (b ++ tail3)) = true)
    (hba : boundaryAfter (w1 ++ ' ' :: w2)
      ((a ++ ' ' :: (b ++ tail3)).drop (w1 ++ ' ' :: w2).length) = true) :
    a = w1 ∧ b = w2 := by
  obtain ⟨haeq, t', htl, hw2pre⟩ := prefix_two_align w1 w2 h1w a (' ' :: (b ++ tail3)) haw
    (Or.inr ⟨_, rfl⟩) hpre
  injection htl with h1x htl
  rw [← htl] at hw2pre
  have hba2 : boundaryAfter w2 ((b ++ tail3).drop w2.length) = true := by
    rw [← boundaryAfter_pat2 w1 w2 h2]
    have hdrop : (a ++ ' ' :: (b ++ tail3)).drop (w1 ++ ' ' :: w2).length
        = (b ++ tail3).drop w2.length := by
      rw [haeq, show (w1 ++ ' ' :: w2).length = w1.length + (w2.length + 1) from by
        simp [List.length_append], drop_append_len, List.drop_succ_cons]
    rw [← hdrop]
    exact hba
  exact ⟨haeq, (prefix_word_eq w2 h2w b tail3 hbw hsep3 hw2pre hba2 h2 hbne).symm⟩

theorem pairSubst_ne_nil (w1 w2 rep : List Char) :
    ∀ l : List (List Char), l ≠ [] → pairSubst w1 w2 rep l ≠ [] := by
  intro l hl
  rcases l with _ | ⟨a, l⟩
  · exact absurd rfl hl
  rcases l with _ | ⟨b, l⟩
  · simp [pairSubst]
  · simp only [pairSubst]
    split_ifs with h
    · simp
    · simp

theorem replaceWordAllGo_joinWords2 (w1 w2 rep : List Char)
    (h1 : w1 ≠ []) (h1w : ∀ c ∈ w1, isJsWordChar c = true)
    (h2 : w2 ≠ []) (h2w : ∀ c ∈ w2, isJsWordChar c = true) :
    ∀ (n : Nat) (ws : List (List Char)), ws.length ≤ n → GoodWords ws →
      replaceWordAllGo (w1 ++ ' ' :: w2) rep 0 false (joinWords ws) =
        joinWords (pairSubst w1 w2 rep ws) := by
  intro n
  induction n with
  | zero =>
    intro ws hlen _
    rw [Nat.le_zero, List.length_eq_zero] at hlen
    subst hlen
    rfl
  | succ n ih =>
    intro ws hlen h
    obtain ⟨p, pt, hp⟩ := List.exists_cons_of_ne_nil h1
    have hpw : isJsWordChar p = true := h1w p (by rw [hp]; simp)
    have hpat : w1 ++ ' ' :: w2 = p :: (pt ++ ' ' :: w2) := by rw [hp]; rfl
    rcases ws with _ | ⟨a, rest⟩
    · rfl
    have ha := h a (by simp)
    have haw : ∀ c ∈ a, isJsWordChar c = true := fun c hc => lowerAlnum_isWord c (ha.2 c hc)
    rcases rest with _ | ⟨b, rest'⟩
    · rw [show joinWords [a] = a ++ [] from (List.append_nil a).symm]
      rw [stepWordNoFire _ rep p _ hpat hpw a [] ha.1 haw (by
        rintro ⟨hpre, -⟩
        obtain ⟨-, t', htl, -⟩ := prefix_two_align w1 w2 h1w a [] haw (Or.inl rfl) hpre
        cases htl)]
      rw [show replaceWordAllGo (w1 ++ ' ' :: w2) rep 0 true [] = [] from rfl,
        List.append_nil]
      rfl
    have hb := h b (by simp)
    have hbw : ∀ c ∈ b, isJsWordChar c = true := fun c hc => lowerAlnum_isWord c (hb.2 c hc)
    rcases rest' with _ | ⟨c', cs⟩
    · by_cases hfire : a = w1 ∧ b = w2
      · rw [show joinWords [a, b] = (w1 ++ ' ' :: w2) ++ [] from by
          rw [show joinWords [a, b] = a ++ ' ' :: b from rfl, hfire.1, hfire.2]
          simp]
        rw [stepPat2 w1 w2 rep h1 h1w h2 h2w [] (Or.inl rfl)]
        rw [show replaceWordAllGo (w1 ++ ' ' :: w2) rep 0 true [] = [] from rfl,
          List.append_nil]
        rw [show pairSubst w1 w2 rep [a, b] = [rep] from by
          simp only [pairSubst, if_pos hfire]]
        rfl
      · rw [show joinWords [a, b] = a ++ ' ' :: (b ++ []) from by
          rw [List.append_nil]
          rfl]
        rw [stepWordNoFire _ rep p _ hpat hpw a (' ' :: (b ++ [])) ha.1 haw (by
          rintro ⟨hpre, hba⟩
          exact hfire (fire_cond_two w1 w2 h1w h2 h2w a haw b hbw hb.1 [] (Or.inl rfl)
            hpre hba))]
        rw [stepSpace2 _ rep p _ hpat hpw]
        rw [stepWordNoFire _ rep p _ hpat hpw b [] hb.1 hbw (by
          rintro ⟨hpre, -⟩
          obtain ⟨-, t', htl, -⟩ := prefix_two_align w1 w2 h1w b [] hbw (Or.inl rfl) hpre
          cases htl)]
        rw [show replaceWordAllGo (w1 ++ ' ' :: w2) rep 0 true [] = [] from rfl,
          List.append_nil]
        rw [show pairSubst w1 w2 rep [a, b] = [a, b] from by
          simp only [pairSubst, if_neg hfire]]
        rfl
    · have hlen2 : (c' :: cs).length ≤ n := by
        simp only [List.length_cons] at hlen ⊢
        omega
      have hlen3 : (b :: c' :: cs).length ≤ n := by
        simp only [List.length_cons] at hlen ⊢
        omega
      by_cases hfire : a = w1 ∧ b = w2
      · rw [show joinWords (a :: b :: c' :: cs)
            = (w1 ++ ' ' :: w2) ++ (' ' :: joinWords (c' :: cs)) from by
          rw [show joinWords (a :: b :: c' :: cs)
              = a ++ ' ' :: (b ++ ' ' :: joinWords (c' :: cs)) from rfl, hfire.1, hfire.2]
          simp]
        rw [stepPat2 w1 w2 rep h1 h1w h2 h2w _ (Or.inr ⟨_, rfl⟩)]
        rw [stepSpace2 _ rep p _ hpat hpw]
        rw [ih (c' :: cs) hlen2 (fun u hu => h u (by simp [hu]))]
        rw [show pairSubst w1 w2 rep (a :: b :: c' :: cs)
            = rep :: pairSubst w1 w2 rep (c' :: cs) from by
          simp only [pairSubst, if_pos hfire]]
        obtain ⟨x, xs, hx⟩ := List.exists_cons_of_ne_nil
          (pairSubst_ne_nil w1 w2 rep (c' :: cs) (by simp))
        rw [hx]
        rfl
      · rw [show joinWords (a :: b :: c' :: cs)
            = a ++ ' ' :: (b ++ ' ' :: joinWords (c' :: cs)) from rfl]
        rw [stepWordNoFire _ rep p _ hpat hpw a (' ' :: (b ++ ' ' :: joinWords (c' :: cs)))
          ha.1 haw (by
          rintro ⟨hpre, hba⟩
          exact hfire (fire_cond_two w1 w2 h1w h2 h2w a haw b hbw hb.1
            (' ' :: joinWords (c' :: cs)) (Or.inr ⟨_, rfl⟩) hpre hba))]
        rw [stepSpace2 _ rep p _ hpat hpw]
        rw [show b ++ ' ' :: joinWords (c' :: cs) = joinWords (b :: c' :: cs) from rfl]
        rw [ih (b :: c' :: cs) hlen3 (fun u hu => h u (by simp [hu]))]
        rw [show pairSubst w1 w2 rep (a :: b :: c' :: cs)
            = a :: pairSubst w1 w2 rep (b :: c' :: cs) from by
          simp only [pairSubst, if_neg hfire]]
        obtain ⟨x, xs, hx⟩ := List.exists_cons_of_ne_nil
          (pairSubst_ne_nil w1 w2 rep (b :: c' :: cs) (by simp))
        rw [hx]
        rfl

/-! ## Word-level facts about the five substitution passes -/

theorem mem_map_subst (pat rep : List Char) (ws : List (List Char)) (u : List Char)
    (hu : u ∈ ws.map (substWord pat rep)) : u = rep ∨ (u ∈ ws ∧ u ≠ pat) := by
  obtain ⟨w, hw, rfl⟩ := List.mem_map.1 hu
  unfold substWord
  split_ifs with hf
  · exact Or.inl rfl
  · exact Or.inr ⟨hw, hf⟩

theorem substWord_eq_imp (pat rep x target : List Char) (hrep : rep ≠ target)
    (h : substWord pat rep x = target) : x = target := by
  unfold substWord at h
  split_ifs at h with hf
  · exact absurd h hrep
  · exact h

theorem map_subst_id (pat rep : List Char) (ws : List (List Char))
    (h : ∀ u ∈ ws, u ≠ pat) : ws.map (substWord pat rep) = ws := by
  induction ws with
  | nil => rfl
  | cons a t ih =>
    simp only [List.map_cons, ih (fun u hu => h u (by simp [hu]))]
    rw [show substWord pat rep a = a from by
      unfold substWord
      rw [if_neg (h a (by simp))]]

theorem pairSubst_mem (w1 w2 rep : List Char) :
    ∀ (n : Nat) (ws : List (List Char)), ws.length ≤ n →
      ∀ u ∈ pairSubst w1 w2 rep ws, u = rep ∨ u ∈ ws := by
  intro n
  induction n with
  | zero =>
    intro ws hlen u hu
    rw [Nat.le_zero, List.length_eq_zero] at hlen
    subst hlen
    simp [pairSubst] at hu
  | succ n ih =>
    intro ws hlen u hu
    rcases ws with _ | ⟨a, rest⟩
    · simp [pairSubst] at hu
    rcases rest with _ | ⟨b, rest'⟩
    · right
      simpa [pairSubst] using hu
    simp only [pairSubst] at hu
    split_ifs at hu with hf
    · rcases List.mem_cons.1 hu with rfl | hu'
      · exact Or.inl rfl
      · rcases ih rest' (by simp only [List.length_cons] at hlen ⊢; omega) u hu' with h | h
        · exact Or.inl h
        · exact Or.inr (by simp [h])
    · rcases List.mem_cons.1 hu with rfl | hu'
      · exact Or.inr (by simp)
      · rcases ih (b :: rest') (by simp only [List.length_cons] at hlen ⊢; omega) u hu'
          with h | h
        · exact Or.inl h
        · exact Or.inr (by simp [h])

theorem pairSubst_head (w1 w2 rep : List Char) (ws : List (List Char)) :
    (pairSubst w1 w2 rep ws).head? = some rep ∨
    (pairSubst w1 w2 rep ws).head? = ws.head? := by
  rcases ws with _ | ⟨a, rest⟩
  · exact Or.inr rfl
  rcases rest with _ | ⟨b, rest'⟩
  · exact Or.inr rfl
  simp only [pairSubst]
  split_ifs
  · exact Or.inl rfl
  · exact Or.inr rfl

theorem pairSubst_chain (w1 w2 rep : List Char) (hr1 : rep ≠ w1) (hr2 : w2 ≠ rep) :
    ∀ (n : Nat) (ws : List (List Char)), ws.length ≤ n →
      List.Chain' (fun x y => ¬(x = w1 ∧ y = w2)) (pairSubst w1 w2 rep ws) := by
  intro n
  induction n with
  | zero =>
    intro ws hlen
    rw [Nat.le_zero, List.length_eq_zero] at hlen
    subst hlen
    simp [pairSubst]
  | succ n ih =>
    intro ws hlen
    rcases ws with _ | ⟨a, rest⟩
    · simp [pairSubst]
    rcases rest with _ | ⟨b, rest'⟩
    · simp [pairSubst]
    simp only [pairSubst]
    split_ifs with hf
    · rw [List.chain'_cons']
      refine ⟨?_, ih rest' (by simp only [List.length_cons] at hlen ⊢; omega)⟩
      intro y _ hcon
      exact hr1 hcon.1
    · rw [List.chain'_cons']
      refine ⟨?_, ih (b :: rest') (by simp only [List.length_cons] at hlen ⊢; omega)⟩
      intro y hy hcon
      rcases pairSubst_head w1 w2 rep (b :: rest') with hh | hh
      · rw [Option.mem_def, hh] at hy
        injection hy with hy
        exact hr2 (hy ▸ hcon.2).symm
      · rw [Option.mem_def, hh, List.head?_cons] at hy
        injection hy with hy
        exact hf ⟨hcon.1, hy ▸ hcon.2⟩

theorem pairSubst_id (w1 w2 rep : List Char) :
    ∀ (n : Nat) (ws : List (List Char)), ws.length ≤ n →
      List.Chain' (fun x y => ¬(x = w1 ∧ y = w2)) ws →
      pairSubst w1 w2 rep ws = ws := by
  intro n
  induction n with
  | zero =>
    intro ws hlen _
    rw [Nat.le_zero, List.length_eq_zero] at hlen
    subst hlen
    rfl
  | succ n ih =>
    intro ws hlen hch
    rcases ws with _ | ⟨a, rest⟩
    · rfl
    rcases rest with _ | ⟨b, rest'⟩
    · rfl
    rw [List.chain'_cons] at hch
    simp only [pairSubst]
    rw [if_neg hch.1, ih (b :: rest') (by simp only [List.length_cons] at hlen ⊢; omega) hch.2]

/-! ## The five passes at word level: membership, chain, idempotence -/

theorem fuzzySubstWords_mem (ws : List (List Char)) (u : List Char)
    (hu : u ∈ fuzzySubstWords ws) :
    u ≠ "nite".data ∧ u ≠ "midnight".data ∧ u ≠ "midnite".data ∧ u ≠ "tha".data := by
  unfold fuzzySubstWords at hu
  rcases mem_map_subst _ _ _ u hu with rfl | ⟨hu4, hne4⟩
  · exact ⟨by decide, by decide, by decide, by decide⟩
  rcases pairSubst_mem _ _ _ _ _ le_rfl u hu4 with rfl | hu3
  · exact ⟨by decide, by decide, by decide, hne4⟩
  rcases mem_map_subst _ _ _ u hu3 with rfl | ⟨hu2, hne3⟩
  · exact ⟨by decide, by decide, by decide, hne4⟩
  rcases mem_map_subst _ _ _ u hu2 with rfl | ⟨hu1, hne2⟩
  · exact ⟨by decide, by decide, by decide, hne4⟩
  rcases mem_map_subst _ _ _ u hu1 with rfl | ⟨hu0, hne1⟩
  · exact ⟨by decide, by decide, by decide, hne4⟩
  · exact ⟨hne1, hne2, hne3, hne4⟩

theorem fuzzySubstWords_chain (ws : List (List Char)) :
    List.Chain' (fun x y => ¬(x = "mid".data ∧ y = "night".data)) (fuzzySubstWords ws) := by
  unfold fuzzySubstWords
  rw [List.chain'_map]
  refine List.Chain'.imp ?_
    (pairSubst_chain "mid".data "night".data "midnigh".data (by decide) (by decide) _ _ le_rfl)
  intro a b hab hcon
  exact hab ⟨substWord_eq_imp _ _ _ _ (by decide) hcon.1,
    substWord_eq_imp _ _ _ _ (by decide) hcon.2⟩

theorem GoodWords_map_subst (pat rep : List Char) (hrep : GoodWord rep)
    (ws : List (List Char)) (h : GoodWords ws) :
    GoodWords (ws.map (substWord pat rep)) := by
  intro u hu
  rcases mem_map_subst _ _ _ u hu with rfl | ⟨hu0, -⟩
  · exact hrep
  · exact h u hu0

theorem GoodWords_fuzzySubstWords (ws : List (List Char)) (h : GoodWords ws) :
    GoodWords (fuzzySubstWords ws) := by
  intro u hu
  unfold fuzzySubstWords at hu
  rcases mem_map_subst _ _ _ u hu with rfl | ⟨hu4, -⟩
  · exact ⟨by decide, by decide⟩
  rcases pairSubst_mem _ _ _ _ _ le_rfl u hu4 with rfl | hu3
  · exact ⟨by decide, by decide⟩
  rcases mem_map_subst _ _ _ u hu3 with rfl | ⟨hu2, -⟩
  · exact ⟨by decide, by decide⟩
  rcases mem_map_subst _ _ _ u hu2 with rfl | ⟨hu1, -⟩
  · exact ⟨by decide, by decide⟩
  rcases mem_map_subst _ _ _ u hu1 with rfl | ⟨hu0, -⟩
  · exact ⟨by decide, by decide⟩
  · exact h u hu0

theorem fuzzySubstWords_fix (ws : List (List Char))
    (hmem : ∀ u ∈ ws,
      u ≠ "nite".data ∧ u ≠ "midnight".data ∧ u ≠ "midnite".data ∧ u ≠ "tha".data)
    (hchain : List.Chain' (fun x y => ¬(x = "mid".data ∧ y = "night".data)) ws) :
    fuzzySubstWords ws = ws := by
  unfold fuzzySubstWords
  rw [map_subst_id _ _ ws (fun u hu => (hmem u hu).1)]
  rw [map_subst_id _ _ ws (fun u hu => (hmem u hu).2.1)]
  rw [map_subst_id _ _ ws (fun u hu => (hmem u hu).2.2.1)]
  rw [pairSubst_id _ _ _ ws.length ws le_rfl hchain]
  rw [map_subst_id _ _ ws (fun u hu => (hmem u hu).2.2.2)]

theorem fuzzySubstWords_idem (ws : List (List Char)) :
    fuzzySubstWords (fuzzySubstWords ws) = fuzzySubstWords ws :=
  fuzzySubstWords_fix _ (fun u hu => fuzzySubstWords_mem ws u hu) (fuzzySubstWords_chain ws)

/-! ## Assembly: `fuzzyNorm` on a canonical string acts wordwise -/

theorem Canon_collapse_trim (l : List Char) (h : Canon l) :
    collapseWs l = l ∧ jsTrim l = l := by
  obtain ⟨hchars, hchain, hhead, hlast⟩ := h
  constructor
  · unfold collapseWs
    exact (collapseWsAux_fix l hchars hchain).1
  · apply jsTrim_fix
    · intro c hc
      apply lowerAlnum_not_ws
      rcases hchars c (List.mem_of_mem_head? hc) with h1 | rfl
      · exact h1
      · exact absurd hc hhead
    · intro c hc
      apply lowerAlnum_not_ws
      rcases hchars c (List.mem_of_mem_getLast? hc) with h1 | rfl
      · exact h1
      · exact absurd hc hlast

theorem replaceWordAll_eq_go (pat rep s : List Char) :
    replaceWordAll pat rep s = replaceWordAllGo pat rep 0 false s := rfl

theorem fuzzyCore_joinWords (ws : List (List Char)) (h : GoodWords ws) :
    replaceWordAll "tha".data "the".data
      (replaceWordAll "mid night".data "midnigh".data
        (replaceWordAll "midnite".data "midnigh".data
          (replaceWordAll "midnight".data "midnigh".data
            (replaceWordAll "nite".data "night".data (joinWords ws)))))
      = joinWords (fuzzySubstWords ws) := by
  have g1 : GoodWords (ws.map (substWord "nite".data "night".data)) :=
    GoodWords_map_subst _ _ ⟨by decide, by decide⟩ ws h
  have g2 : GoodWords ((ws.map (substWord "nite".data "night".data)).map
      (substWord "midnight".data "midnigh".data)) :=
    GoodWords_map_subst _ _ ⟨by decide, by decide⟩ _ g1
  have g3 : GoodWords (((ws.map (substWord "nite".data "night".data)).map
      (substWord "midnight".data "midnigh".data)).map
        (substWord "midnite".data "midnigh".data)) :=
    GoodWords_map_subst _ _ ⟨by decide, by decide⟩ _ g2
  have g4 : GoodWords (pairSubst "mid".data "night".data "midnigh".data
      (((ws.map (substWord "nite".data "night".data)).map
          (substWord "midnight".data "midnigh".data)).map
        (substWord "midnite".data "midnigh".data))) := by
    intro u hu
    rcases pairSubst_mem _ _ _ _ _ le_rfl u hu with rfl | hu3
    · exact ⟨by decide, by decide⟩
    · exact g3 u hu3
  rw [replaceWordAll_eq_go, replaceWordAll_eq_go, replaceWordAll_eq_go,
    replaceWordAll_eq_go, replaceWordAll_eq_go]
  rw [replaceWordAllGo_joinWords "nite".data "night".data (by decide) (by decide) ws h]
  rw [replaceWordAllGo_joinWords "midnight".data "midnigh".data (by decide) (by decide) _ g1]
  rw [replaceWordAllGo_joinWords "midnite".data "midnigh".data (by decide) (by decide) _ g2]
  rw [show ("mid night".data : List Char) = "mid".data ++ ' ' :: "night".data from by decide]
  rw [replaceWordAllGo_joinWords2 "mid".data "night".data "midnigh".data (by decide)
    (by decide) (by decide) (by decide) _ _ le_rfl g3]
  rw [replaceWordAllGo_joinWords "tha".data "the".data (by decide) (by decide) _ g4]
  rfl

theorem fuzzyNorm_core (s : Option String) (ws : List (List Char)) (hws : GoodWords ws)
    (hn : (normalize s).data = joinWords ws) :
    fuzzyNorm s = ⟨joinWords (fuzzySubstWords ws)⟩ := by
  unfold fuzzyNorm
  rw [hn, fuzzyCore_joinWords ws hws]
  obtain ⟨h1, h2⟩ :=
    Canon_collapse_trim _ (Canon_joinWords _ (GoodWords_fuzzySubstWords ws hws))
  rw [h1, h2]

/-! ## Claim C10 -/

/-- C10: `fuzzyNorm` is idempotent — `fuzzyNorm(fuzzyNorm(s)) == fuzzyNorm(s)` for
every string (and for the absent input).  The ordered whole-word substitutions
`nite→night`, `midnight→midnigh`, `midnite→midnigh`, `mid night→midnigh`,
`tha→the` applied after normalization produce a fixed point: no substitution
output (`night`, `midnigh`, `the`) is itself a substitutable word, and no
replacement creates a new adjacent `mid night` pair. -/
theorem C10_fuzzyNorm_idempotent (s : Option String) :
    fuzzyNorm (some (fuzzyNorm s)) = fuzzyNorm s := by
  obtain ⟨ws, hws, hjoin⟩ := Canon_decomp (normalize s).data (Canon_normalizeCore _)
  have h1 : fuzzyNorm s = ⟨joinWords (fuzzySubstWords ws)⟩ := fuzzyNorm_core s ws hws hjoin
  have hg : GoodWords (fuzzySubstWords ws) := GoodWords_fuzzySubstWords ws hws
  have hn2 : (normalize (some (fuzzyNorm s))).data = joinWords (fuzzySubstWords ws) := by
    rw [h1]
    exact normalizeCore_fix _ (Canon_joinWords _ hg)
  have h2 : fuzzyNorm (some (fuzzyNorm s)) =
      ⟨joinWords (fuzzySubstWords (fuzzySubstWords ws))⟩ :=
    fuzzyNorm_core (some (fuzzyNorm s)) (fuzzySubstWords ws) hg hn2
  rw [h2, fuzzySubstWords_idem, ← h1]

end DiscogsPreview

